import Mathlib

/-!
Shallow embedding of `src/hotspot/share/cds/cdsHeapVerifier.cpp`.

`CDSHeapVerifier` checks for archived heap objects that are also the current
value of a static object field which may be reinitialized at runtime:
`do_klass` collects all static object fields of every loaded class into a
table (applying the exclusion rules), `do_entry` cross-checks every object of
the archived-object cache against that table, and `trace_to_root` prints a
root-first provenance trace for every hit.

Modelling conventions:
- an `Oop` (object identity) is a `Nat`; a missing/NULL reference is `none`;
- the heap, the class registry and the archived-object cache are explicit
  association lists carried in an `Env` / `Cache` value;
- the diagnostic sink is modelled structurally: every `print` of the verifier
  becomes one constructor of `LogLine`, so theorems can talk about exactly
  what was emitted and in which order.
-/

namespace CDSHeapVerify

/-- Object identity (the `oop` of the source). -/
abbrev Oop := Nat

/-- The field type tags the verifier dispatches on (`T_OBJECT`, `T_ARRAY`,
anything else). -/
inductive BasicType where
  | tObject
  | tArray
  | tOther
deriving DecidableEq, Repr

/-- One entry of a `JavaFieldStream`: the parts of `fieldDescriptor` read by
the verifier (`is_static`, `field_type`, `name`, `is_final`,
`has_initial_value`, `offset`). -/
structure FieldDesc where
  isStatic : Bool
  fieldType : BasicType
  name : String
  isFinal : Bool
  hasInitialValue : Bool
  offset : Nat
deriving DecidableEq, Repr

/-- The parts of a loaded `Klass` read by the verifier: its name
(`external_name` / `internal_name`), whether it is an `InstanceKlass`, its
`JavaFieldStream` in declaration order, `HeapShared::is_subgraph_root_class`,
`has_archived_enum_objs`, and its `java_mirror` (the object holding the static
fields). -/
structure Klass where
  name : String
  isInstanceKlass : Bool
  fields : List FieldDesc
  isSubgraphRootClass : Bool
  hasArchivedEnumObjs : Bool
  mirror : Oop
deriving DecidableEq, Repr

/-- The per-object facts the verifier reads from the heap: the owning class
(an index into the class registry), `java_lang_String::is_instance`,
`java_lang_Class::is_instance`, the object fields addressed by offset
(`obj_field`), and — for object arrays — the elements (`obj_at`). -/
structure ObjDesc where
  klass : Nat
  isString : Bool
  isMirror : Bool
  objFields : List (Nat × Option Oop)
  arrayElems : List (Option Oop)
deriving DecidableEq, Repr

/-- The immutable world the verifier runs against: the loaded-class registry
(`ClassLoaderDataGraph::classes_do` order) and the heap. -/
structure Env where
  klasses : List Klass
  heap : List (Oop × ObjDesc)
deriving DecidableEq, Repr

/-- Heap lookup of an object by identity. -/
def Env.obj (env : Env) (o : Oop) : Option ObjDesc :=
  (env.heap.find? (fun p => p.1 == o)).map Prod.snd

/-- `obj->obj_field(offset)`: read an object field; `none` models NULL (also
for an out-of-model object or offset). -/
def objFieldAt (env : Env) (o : Oop) (off : Nat) : Option Oop :=
  match env.obj o with
  | none => none
  | some od =>
    match od.objFields.find? (fun p => p.1 == off) with
    | none => none
    | some p => p.2

/-- `java_lang_String::is_instance(o)`. -/
def isStringInstance (env : Env) (o : Oop) : Bool :=
  (env.obj o).elim false ObjDesc.isString

/-- `java_lang_Class::is_instance(o)`. -/
def isClassInstance (env : Env) (o : Oop) : Bool :=
  (env.obj o).elim false ObjDesc.isMirror

/-- `o->klass()`. -/
def oopKlass (env : Env) (o : Oop) : Option Klass :=
  (env.obj o).bind (fun od => env.klasses.get? od.klass)

/-- `o->klass()->has_archived_enum_objs()`. -/
def valueKlassHasArchivedEnumObjs (env : Env) (o : Oop) : Bool :=
  (oopKlass env o).elim false Klass.hasArchivedEnumObjs

/-- The `ADD_EXCL` table built in the `CDSHeapVerifier` constructor: for each
class name, the exempted static field names (the A/B/C/D/E rationale tags of
the source are documentation only and carry no behavior). -/
def exclusion_table : List (String × List String) := [
  ("java/lang/ClassLoader", ["scl"]),
  ("java/lang/invoke/InvokerBytecodeGenerator",
    ["DONTINLINE_SIG", "FORCEINLINE_SIG", "HIDDEN_SIG",
     "INJECTEDPROFILE_SIG", "LF_COMPILED_SIG"]),
  ("java/lang/Module",
    ["ALL_UNNAMED_MODULE", "ALL_UNNAMED_MODULE_SET",
     "EVERYONE_MODULE", "EVERYONE_SET"]),
  ("java/lang/System", ["bootLayer"]),
  ("java/lang/VersionProps",
    ["VENDOR_URL_BUG", "VENDOR_URL_VM_BUG", "VENDOR_VERSION"]),
  ("java/net/URL$DefaultFactory", ["PREFIX"]),
  ("java/util/HashSet", ["PRESENT"]),
  ("jdk/internal/loader/BuiltinClassLoader", ["packageToModule"]),
  ("jdk/internal/loader/ClassLoaders",
    ["BOOT_LOADER", "APP_LOADER", "PLATFORM_LOADER"]),
  ("jdk/internal/loader/URLClassPath", ["JAVA_VERSION"]),
  ("jdk/internal/module/Builder", ["cachedVersion"]),
  ("jdk/internal/module/ModuleLoaderMap$Mapper",
    ["APP_CLASSLOADER", "APP_LOADER_INDEX",
     "PLATFORM_CLASSLOADER", "PLATFORM_LOADER_INDEX"]),
  ("jdk/internal/module/ServicesCatalog", ["CLV"]),
  ("jdk/internal/reflect/Reflection", ["methodFilterMap"]),
  ("jdk/internal/util/StaticProperty", ["FILE_ENCODING"])]

/-- Modelled from the spec: `find_exclusion` is declared in
`cdsHeapVerifier.hpp`, which is not part of the sources; per the spec,
`lookup(className)` returns the set of exempted field names registered for
that class, or nothing when none is registered. -/
def find_exclusion (kname : String) : Option (List String) :=
  (exclusion_table.find? (fun e => e.1 == kname)).map Prod.snd

/-- The exclusion loop of `do_klass`: the field is skipped when the class has
registered exclusions and the field name equals one of them. -/
def isExcluded (kname fname : String) : Bool :=
  match find_exclusion kname with
  | none => false
  | some l => l.contains fname

/-- `StaticFieldInfo` of the source: the holder class (as an index into the
class registry, printed via `external_name`) and the field name. -/
structure StaticFieldInfo where
  holder : Nat
  name : String
deriving DecidableEq, Repr

/-- The `KVHashtable<oop, StaticFieldInfo>` `_table`, as an association list. -/
abbrev StaticFieldTable := List (Oop × StaticFieldInfo)

/-- Modelled from the spec: `KVHashtable::put` lives in `resourceHash.hpp`,
not part of the sources; per the spec it unconditionally overwrites any
existing entry for the same key (no deletion otherwise). -/
def tablePut (t : StaticFieldTable) (k : Oop) (v : StaticFieldInfo) :
    StaticFieldTable :=
  (k, v) :: t.filter (fun p => p.1 != k)

/-- Modelled from the spec: `KVHashtable::get` returns the entry stored for
the key, or nothing. -/
def tableGet (t : StaticFieldTable) (k : Oop) : Option StaticFieldInfo :=
  (t.find? (fun p => p.1 == k)).map Prod.snd

/-- The skip-rule chain of `do_klass` applied once the static field's value is
known to be non-NULL (source lines 176–210, in source order): exclusion table,
final string literal with compile-time initial value, final class mirror,
archived enum objects on the value's class; otherwise the value is indexed. -/
def fieldValueDecision (env : Env) (ik : Klass) (fd : FieldDesc) (v : Oop) :
    Option Oop :=
  if isExcluded ik.name fd.name then none
  else if fd.isFinal && isStringInstance env v && fd.hasInitialValue then none
  else if fd.isFinal && isClassInstance env v then none
  else if valueKlassHasArchivedEnumObjs env v then none
  else some v

/-- The per-field body of `do_klass` (lines 170–211 of the source): returns
the value to index for this field, or `none` when one of the skip rules
applies.  The checks appear in source order: `is_static`, `field_type() ==
T_OBJECT`, non-NULL value, then the `fieldValueDecision` chain. -/
def fieldDecision (env : Env) (ik : Klass) (fd : FieldDesc) : Option Oop :=
  if fd.isStatic then
    if fd.fieldType = BasicType.tObject then
      match objFieldAt env ik.mirror fd.offset with
      | none => none
      | some v => fieldValueDecision env ik fd v
    else none
  else none

/-- One step of the field loop of `do_klass`: `put` the field's value when
the skip rules let it through, with the holder class and field name. -/
def scanStep (env : Env) (ik : Klass) (ki : Nat)
    (t : StaticFieldTable) (fd : FieldDesc) : StaticFieldTable :=
  match fieldDecision env ik fd with
  | none => t
  | some v => tablePut t v ⟨ki, fd.name⟩

/-- `CDSHeapVerifier::do_klass`: skip non-instance classes and subgraph root
classes wholesale; otherwise walk the field stream and `put` every field the
skip rules let through. -/
def do_klass (env : Env) (t : StaticFieldTable) (ki : Nat) : StaticFieldTable :=
  match env.klasses.get? ki with
  | none => t
  | some ik =>
    if ik.isInstanceKlass then
      if ik.isSubgraphRootClass then t
      else ik.fields.foldl (scanStep env ik ki) t
    else t

/-- `ClassLoaderDataGraph::classes_do(this)` in the constructor: one
`do_klass` call per loaded class, in registry order, starting from the empty
table. -/
def buildTable (env : Env) : StaticFieldTable :=
  (List.range env.klasses.length).foldl (do_klass env) []

/-- The field name / array index printed on a trace hop. -/
inductive Selector where
  | field (name : String) (offset : Nat)
  | elem (idx : Nat)
deriving DecidableEq, Repr

/-- One line of diagnostic output; each constructor corresponds to one
`print`/`print_cr` of the source (`header` is the
"Archive heap points to a static field …" line, `summary` the destructor's
"Scanned %d objects. Found %d case(s) …" line, `hop` one
"[level] address klass-name [selector]" trace line, `stringTableHop` the
"[level] (shared string table)" line). -/
inductive LogLine where
  | header
  | fieldId (holder : Nat) (fname : String)
  | valueLine (o : Oop)
  | traceBegin
  | traceEnd
  | stringTableHop (level : Nat)
  | hop (level : Nat) (o : Oop) (kname : String) (sel : Option Selector)
  | summary (scanned : Nat) (problems : Nat)
deriving DecidableEq, Repr

/-- The per-field predicate of the parent re-scan in `trace_to_root`
(lines 258–262): non-static, of type `T_OBJECT` or `T_ARRAY`, and with
current value identical to the child. -/
def traceFieldMatches (env : Env) (parent child : Oop) (fd : FieldDesc) :
    Bool :=
  !fd.isStatic &&
    (fd.fieldType == BasicType.tObject || fd.fieldType == BasicType.tArray) &&
    objFieldAt env parent fd.offset == some child

/-- The element scan of the array branch of `trace_to_root` (lines 272–277):
index of the first element identical to the child. -/
def arrayIndexOf (child : Oop) : List (Option Oop) → Option Nat
  | [] => none
  | e :: rest =>
    if e == some child then some 0 else (arrayIndexOf child rest).map (· + 1)

/-- The selector printed on a hop line for `parent` when its child in the
trace is `child`: for an instance-class parent, the first field of the field
stream satisfying `traceFieldMatches`; otherwise (an object array) the first
element index holding the child. -/
def selOf (env : Env) (parent child : Oop) : Option Selector :=
  match oopKlass env parent with
  | none => none
  | some k =>
    if k.isInstanceKlass then
      (k.fields.find? (traceFieldMatches env parent child)).map
        (fun fd => Selector.field fd.name fd.offset)
    else
      match env.obj parent with
      | none => none
      | some od =>
        (arrayIndexOf child od.arrayElems).map Selector.elem

/-- The trace line printed for `o` at depth `level`; the selector is computed
only when a child (`orig_field`) is present, as in the source. -/
def hopLine (env : Env) (level : Nat) (o : Oop) (fld : Option Oop) : LogLine :=
  LogLine.hop level o ((oopKlass env o).elim "" Klass.name) (fld.bind (selOf env o))

/-- `HeapShared::CachedOopInfo`, reduced to the only part the verifier reads:
the referrer (`none` marks a snapshot root). -/
structure CachedOopInfo where
  referrer : Option Oop
deriving DecidableEq, Repr

/-- `HeapShared::archived_object_cache()`, as an association list; its list
order is the collaborator-defined iteration order. -/
abbrev Cache := List (Oop × CachedOopInfo)

/-- Cache lookup (`archived_object_cache()->get`). -/
def cacheGet (c : Cache) (o : Oop) : Option CachedOopInfo :=
  (c.find? (fun p => p.1 == o)).map Prod.snd

/-- `CDSHeapVerifier::trace_to_root`, with explicit fuel standing for the
implicit termination of the recursion on the (acyclic) referrer chain.
Returns the printed level of `orig_obj` and the lines printed, root first;
`none` models a fuel-exhausted (cyclic) chain or the failed
`assert(ref != NULL)` when a referrer is missing from the cache. -/
def trace_to_root (env : Env) (cache : Cache) :
    Nat → Oop → Option Oop → CachedOopInfo → Option (Nat × List LogLine)
  | 0, _, _, _ => none
  | fuel + 1, orig_obj, orig_field, p =>
    match p.referrer with
    | some r =>
      match cacheGet cache r with
      | none => none
      | some ref =>
        match trace_to_root env cache fuel r (some orig_obj) ref with
        | none => none
        | some (lvl, lines) =>
          some (lvl + 1, lines ++ [hopLine env (lvl + 1) orig_obj orig_field])
    | none =>
      if isStringInstance env orig_obj then
        some (1, [LogLine.stringTableHop 0, hopLine env 1 orig_obj orig_field])
      else
        some (0, [hopLine env 0 orig_obj orig_field])

/-- The verifier's mutable state: `_archived_objs`, `_problems`, and the
diagnostic output emitted so far. -/
structure VState where
  archived_objs : Nat
  problems : Nat
  log : List LogLine
deriving DecidableEq, Repr

/-- `CDSHeapVerifier::do_entry`: count the entry, consult the table, and on a
hit emit the violation block (field identification, value, trace).  The
source always returns `true` (keep iterating); `none` here only propagates a
failed trace. -/
def do_entry (env : Env) (cache : Cache) (t : StaticFieldTable)
    (st : VState) (e : Oop × CachedOopInfo) : Option VState :=
  let st1 : VState := { st with archived_objs := st.archived_objs + 1 }
  match tableGet t e.1 with
  | none => some st1
  | some info =>
    match trace_to_root env cache (cache.length + 1) e.1 none e.2 with
    | none => none
    | some r =>
      some { st1 with
        problems := st1.problems + 1
        log := st1.log ++
          [LogLine.header, LogLine.fieldId info.holder info.name,
           LogLine.valueLine e.1, LogLine.traceBegin] ++ r.2 ++
          [LogLine.traceEnd] }

/-- `archived_object_cache()->iterate(&verf)`: fold `do_entry` over every
cache entry in iteration order. -/
def runChecker (env : Env) (cache : Cache) (t : StaticFieldTable) :
    Option VState :=
  cache.foldlM (do_entry env cache t) ⟨0, 0, []⟩

/-- `CDSHeapVerifier::verify()`: build the verifier (constructor = table
build), iterate the cache, then run the destructor, which prints the summary
line only when problems were found. -/
def verify (env : Env) (cache : Cache) : Option VState :=
  match runChecker env cache (buildTable env) with
  | none => none
  | some st =>
    some { st with
      log := st.log ++
        (if 0 < st.problems then [LogLine.summary st.archived_objs st.problems]
         else []) }

/-- `chainOk cache fuel r`: the referrer chain starting at `r` resolves in the
cache and reaches a root within `fuel` steps. -/
def chainOk (cache : Cache) : Nat → Option Oop → Bool
  | _, none => true
  | 0, some _ => false
  | fuel + 1, some r =>
    match cacheGet cache r with
    | none => false
    | some ref => chainOk cache fuel ref.referrer

/-- Well-formed cache: every entry's referrer chain resolves to a root within
`cache.length` steps (true of the real cache, whose referrer links form a
tree over its own entries). -/
def cacheWF (cache : Cache) : Bool :=
  cache.all (fun e => chainOk cache cache.length e.2.referrer)

/-- A reported violation, as identified by the spec: owning class, field
name, violating object. -/
structure Violation where
  holder : Nat
  fname : String
  obj : Oop
deriving DecidableEq, Repr

/-- The violation a single cache entry gives rise to, if any: the table entry
for its object. -/
def violationOf (t : StaticFieldTable) (e : Oop × CachedOopInfo) :
    Option Violation :=
  (tableGet t e.1).map (fun info => ⟨info.holder, info.name, e.1⟩)

/-- Read the reported violations back off the diagnostic output: each
violation block prints exactly one `fieldId` line immediately followed by the
`valueLine` of the violating object. -/
def logViolations : List LogLine → List Violation
  | [] => []
  | LogLine.fieldId h n :: rest =>
    (match rest.head? with
     | some (LogLine.valueLine o) => [Violation.mk h n o]
     | _ => []) ++ logViolations rest
  | _ :: rest => logViolations rest

/-- The diagnostic block `do_entry` emits for one cache entry (empty when the
entry's object is not in the table). -/
def entryLog (env : Env) (cache : Cache) (t : StaticFieldTable)
    (e : Oop × CachedOopInfo) : List LogLine :=
  match tableGet t e.1 with
  | none => []
  | some info =>
    [LogLine.header, LogLine.fieldId info.holder info.name,
     LogLine.valueLine e.1, LogLine.traceBegin] ++
    ((trace_to_root env cache (cache.length + 1) e.1 none e.2).elim []
      Prod.snd) ++
    [LogLine.traceEnd]

/-- The tracer prints only trace lines (hops and the shared-string-table
label). -/
def isTraceLine : LogLine → Bool
  | LogLine.hop _ _ _ _ => true
  | LogLine.stringTableHop _ => true
  | _ => false

/-- Relation between adjacent printed hop lines: the parent names the field
resolved by `selOf`, and depths increase by one. -/
def hopStep (env : Env) (la lb : LogLine) : Prop :=
  ∀ lp pa knp selp lc c knc selc,
    la = LogLine.hop lp pa knp selp → lb = LogLine.hop lc c knc selc →
    selp = selOf env pa c ∧ lc = lp + 1

/-- Does a log contain the destructor's summary line? -/
def containsSummary (log : List LogLine) : Bool :=
  log.any (fun x => match x with
    | LogLine.summary _ _ => true
    | _ => false)

/-- Modelled from the spec (refinement comparison): the per-field skip rules
applied in the ORDER the spec lists them — 2 exclusion, 3 null value,
4 literal string, 5 mirror, 6 enum (rule 1, the root-class check, is
class-level and outside this function).  The source checks the null value
before the exclusion table; this definition lets us prove the two orders
observationally equal. -/
def fieldDecisionSpecOrder (env : Env) (ik : Klass) (fd : FieldDesc) :
    Option Oop :=
  if fd.isStatic then
    if fd.fieldType = BasicType.tObject then
      if isExcluded ik.name fd.name then none
      else
        match objFieldAt env ik.mirror fd.offset with
        | none => none
        | some v =>
          if fd.isFinal && isStringInstance env v && fd.hasInitialValue then
            none
          else if fd.isFinal && isClassInstance env v then none
          else if valueKlassHasArchivedEnumObjs env v then none
          else some v
    else none
  else none

/-! Concrete scenario environments used by closed instantiations. -/

/-- A plain (non-final, no initial value) static object field `f` at
offset 0. -/
def fdF : FieldDesc :=
  { isStatic := true, fieldType := BasicType.tObject, name := "f",
    isFinal := false, hasInitialValue := false, offset := 0 }

/-- A second plain static object field `g` at offset 1. -/
def fdG : FieldDesc := { fdF with name := "g", offset := 1 }

/-- Class `Foo` declaring `f` and `g`, neither excluded. -/
def kFoo : Klass :=
  { name := "Foo", isInstanceKlass := true, fields := [fdF, fdG],
    isSubgraphRootClass := false, hasArchivedEnumObjs := false, mirror := 100 }

/-- The value class of oop 0 in `envTwoFields`. -/
def kBar : Klass :=
  { name := "Bar", isInstanceKlass := true, fields := [],
    isSubgraphRootClass := false, hasArchivedEnumObjs := false, mirror := 101 }

/-- Two distinct static fields of `Foo` both currently hold object 0, which
is also archived. -/
def envTwoFields : Env :=
  { klasses := [kFoo, kBar],
    heap := [(100, { klass := 0, isString := false, isMirror := false,
                     objFields := [(0, some 0), (1, some 0)],
                     arrayElems := [] }),
             (0, { klass := 1, isString := false, isMirror := false,
                   objFields := [], arrayElems := [] })] }

/-- A snapshot cache holding only object 0, as a root. -/
def cacheOne : Cache := [(0, { referrer := none })]

/-- The state `verify envTwoFields cacheOne` produces. -/
def stTwo : VState :=
  { archived_objs := 1, problems := 1,
    log := [LogLine.header, LogLine.fieldId 0 "g", LogLine.valueLine 0,
            LogLine.traceBegin, LogLine.hop 0 0 "Bar" none, LogLine.traceEnd,
            LogLine.summary 1 1] }

/-- `Foo` marked as a subgraph root class. -/
def kFooRoot : Klass := { kFoo with isSubgraphRootClass := true }

/-- `envTwoFields` with the declaring class marked as a root class. -/
def envRooted : Env := { envTwoFields with klasses := [kFooRoot, kBar] }

/-- A final static string field with a compile-time initial value. -/
def fdLit : FieldDesc :=
  { isStatic := true, fieldType := BasicType.tObject, name := "LIT",
    isFinal := true, hasInitialValue := true, offset := 0 }

/-- A plain static object field sharing the literal's value. -/
def fdOther : FieldDesc :=
  { isStatic := true, fieldType := BasicType.tObject, name := "other",
    isFinal := false, hasInitialValue := false, offset := 1 }

/-- Class `A` declaring the literal field and the plain field. -/
def kA : Klass :=
  { name := "A", isInstanceKlass := true, fields := [fdLit, fdOther],
    isSubgraphRootClass := false, hasArchivedEnumObjs := false, mirror := 200 }

/-- The string class of oop 0 in `envLit`. -/
def kStr : Klass :=
  { name := "Str", isInstanceKlass := true, fields := [],
    isSubgraphRootClass := false, hasArchivedEnumObjs := false, mirror := 201 }

/-- A final literal string field and a plain field both hold the archived
string object 0. -/
def envLit : Env :=
  { klasses := [kA, kStr],
    heap := [(200, { klass := 0, isString := false, isMirror := false,
                     objFields := [(0, some 0), (1, some 0)],
                     arrayElems := [] }),
             (0, { klass := 1, isString := true, isMirror := false,
                   objFields := [], arrayElems := [] })] }

/-- A snapshot cache holding only the string object 0, as a root. -/
def cacheLit : Cache := [(0, { referrer := none })]

/-- The state `verify envLit cacheLit` produces: the string object IS
reported, attributed to the plain field. -/
def stLit : VState :=
  { archived_objs := 1, problems := 1,
    log := [LogLine.header, LogLine.fieldId 0 "other", LogLine.valueLine 0,
            LogLine.traceBegin, LogLine.stringTableHop 0,
            LogLine.hop 1 0 "Str" none, LogLine.traceEnd,
            LogLine.summary 1 1] }

/-- The static field `CONST` of the enum scenario. -/
def fdConst : FieldDesc :=
  { isStatic := true, fieldType := BasicType.tObject, name := "CONST",
    isFinal := false, hasInitialValue := false, offset := 0 }

/-- Enum subclass `E` with archived enum instances. -/
def kE : Klass :=
  { name := "E", isInstanceKlass := true, fields := [fdConst],
    isSubgraphRootClass := false, hasArchivedEnumObjs := true, mirror := 300 }

/-- `E::CONST` holds object 5, itself an instance of `E`. -/
def envEnum : Env :=
  { klasses := [kE],
    heap := [(300, { klass := 0, isString := false, isMirror := false,
                     objFields := [(0, some 5)], arrayElems := [] }),
             (5, { klass := 0, isString := false, isMirror := false,
                   objFields := [], arrayElems := [] })] }

/-- A snapshot cache holding object 5, as a root. -/
def cacheEnum : Cache := [(5, { referrer := none })]

/-- The state `verify envEnum cacheEnum` produces: zero problems. -/
def stEnum : VState := { archived_objs := 1, problems := 0, log := [] }

/-- A non-static object field used by the trace scenarios. -/
def fdChild : FieldDesc :=
  { isStatic := false, fieldType := BasicType.tObject, name := "child",
    isFinal := false, hasInitialValue := false, offset := 0 }

/-- Root-object class of the trace scenario. -/
def kR : Klass :=
  { name := "R", isInstanceKlass := true, fields := [fdChild],
    isSubgraphRootClass := false, hasArchivedEnumObjs := false, mirror := 400 }

/-- Middle-object class of the trace scenario. -/
def kM : Klass :=
  { name := "M", isInstanceKlass := true, fields := [fdChild],
    isSubgraphRootClass := false, hasArchivedEnumObjs := false, mirror := 401 }

/-- Leaf-object class of the trace scenario. -/
def kB : Klass :=
  { name := "B", isInstanceKlass := true, fields := [],
    isSubgraphRootClass := false, hasArchivedEnumObjs := false, mirror := 402 }

/-- A three-object chain 10 → 11 → 12 along actual field references. -/
def envTrace : Env :=
  { klasses := [kR, kM, kB],
    heap := [(10, { klass := 0, isString := false, isMirror := false,
                    objFields := [(0, some 11)], arrayElems := [] }),
             (11, { klass := 1, isString := false, isMirror := false,
                    objFields := [(0, some 12)], arrayElems := [] }),
             (12, { klass := 2, isString := false, isMirror := false,
                    objFields := [], arrayElems := [] })] }

/-- The snapshot cache of the trace scenario, root first. -/
def cacheTrace : Cache :=
  [(10, { referrer := none }), (11, { referrer := some 10 }),
   (12, { referrer := some 11 })]

/-- The same cache contents in the reverse iteration order. -/
def cacheTraceRev : Cache :=
  [(12, { referrer := some 11 }), (11, { referrer := some 10 }),
   (10, { referrer := none })]

/-- A one-entry index flagging object 12 of the trace scenario. -/
def tblW : StaticFieldTable := [(12, { holder := 0, name := "f" })]

/-- A parent whose recorded referrer no longer references the child: object
20 (class `M`) has its only field pointing at 99, while the cache records it
as the referrer of 21. -/
def envNoMatch : Env :=
  { klasses := [kM, kB],
    heap := [(20, { klass := 0, isString := false, isMirror := false,
                    objFields := [(0, some 99)], arrayElems := [] }),
             (21, { klass := 1, isString := false, isMirror := false,
                    objFields := [], arrayElems := [] })] }

/-- Cache of the no-match scenario. -/
def cacheNoMatch : Cache :=
  [(20, { referrer := none }), (21, { referrer := some 20 })]

/-- A static field of array type (`T_ARRAY`). -/
def fdArr : FieldDesc :=
  { isStatic := true, fieldType := BasicType.tArray, name := "arr",
    isFinal := false, hasInitialValue := false, offset := 0 }

/-- Class `C` whose only static field is array-typed and holds object 7. -/
def kC : Klass :=
  { name := "C", isInstanceKlass := true, fields := [fdArr],
    isSubgraphRootClass := false, hasArchivedEnumObjs := false, mirror := 500 }

/-- Environment of the array-field scenario. -/
def envArr : Env :=
  { klasses := [kC],
    heap := [(500, { klass := 0, isString := false, isMirror := false,
                     objFields := [(0, some 7)], arrayElems := [] }),
             (7, { klass := 0, isString := false, isMirror := false,
                   objFields := [], arrayElems := [] })] }

/-- A snapshot cache holding the array value, as a root. -/
def cacheArr : Cache := [(7, { referrer := none })]

/-- The state `verify envArr cacheArr` produces: zero problems. -/
def stArr : VState := { archived_objs := 1, problems := 0, log := [] }

/-- A non-static field of array type, for the tracer contrast. -/
def fdChildArr : FieldDesc :=
  { isStatic := false, fieldType := BasicType.tArray, name := "elems",
    isFinal := false, hasInitialValue := false, offset := 0 }

/-- A class holding an array-typed instance field. -/
def kHolder : Klass :=
  { name := "H", isInstanceKlass := true, fields := [fdChildArr],
    isSubgraphRootClass := false, hasArchivedEnumObjs := false,
    mirror := 600 }

/-- Object 40 references object 41 through its array-typed instance field. -/
def envArrField : Env :=
  { klasses := [kHolder],
    heap := [(40, { klass := 0, isString := false, isMirror := false,
                    objFields := [(0, some 41)], arrayElems := [] }),
             (41, { klass := 0, isString := false, isMirror := false,
                    objFields := [], arrayElems := [] })] }

/-- The empty environment. -/
def envEmpty : Env := { klasses := [], heap := [] }

/-! Helper lemmas. -/

theorem if_then_none {α : Type} (c : Prop) [Decidable c] (x : Option α)
    (v : α) : ((if c then x else none) = some v) ↔ (c ∧ x = some v) := by
  by_cases h : c <;> simp [h]

theorem if_none_then {α : Type} (c : Prop) [Decidable c] (x : Option α)
    (v : α) : ((if c then none else x) = some v) ↔ (¬c ∧ x = some v) := by
  by_cases h : c <;> simp [h]

theorem find?_first {α : Type} (p : α → Bool) :
    ∀ (l : List α) (a : α), l.find? p = some a →
      ∃ i, l.get? i = some a ∧ p a = true ∧
        ∀ j, j < i → ∀ b, l.get? j = some b → p b = false := by
  intro l
  induction l with
  | nil => intro a h; simp at h
  | cons x xs ih =>
    intro a h
    cases hpx : p x with
    | true =>
      rw [List.find?_cons_of_pos _ hpx] at h
      cases h
      exact ⟨0, rfl, hpx, fun j hj => absurd hj (Nat.not_lt_zero j)⟩
    | false =>
      rw [List.find?_cons_of_neg _ (by simp [hpx])] at h
      obtain ⟨i, hi, hpa, hfirst⟩ := ih a h
      refine ⟨i + 1, hi, hpa, ?_⟩
      intro j hj b hb
      cases j with
      | zero =>
        have hxb : x = b := by simpa using hb
        subst hxb
        exact hpx
      | succ j => exact hfirst j (Nat.lt_of_succ_lt_succ hj) b hb

theorem arrayIndexOf_first (child : Oop) :
    ∀ (l : List (Option Oop)) (i : Nat), arrayIndexOf child l = some i →
      l.get? i = some (some child) ∧
        ∀ j, j < i → l.get? j ≠ some (some child) := by
  intro l
  induction l with
  | nil => intro i h; simp [arrayIndexOf] at h
  | cons e rest ih =>
    intro i h
    unfold arrayIndexOf at h
    by_cases he : e == some child
    · rw [if_pos he] at h
      cases h
      refine ⟨?_, ?_⟩
      · exact congrArg some (eq_of_beq he)
      · intro j hj
        exact absurd hj (Nat.not_lt_zero j)
    · rw [if_neg he] at h
      cases hrec : arrayIndexOf child rest with
      | none =>
        rw [hrec] at h
        exact Option.noConfusion h
      | some i0 =>
        rw [hrec] at h
        have hi : i = i0 + 1 := by simpa using h.symm
        subst hi
        obtain ⟨h1, h2⟩ := ih i0 hrec
        refine ⟨h1, ?_⟩
        intro j hj
        cases j with
        | zero =>
          intro hc
          have he2 : e = some child := by simpa using hc
          rw [he2] at he
          simp at he
        | succ j => exact h2 j (Nat.lt_of_succ_lt_succ hj)

/-! Table lemmas. -/

theorem tableGet_tablePut_self (t : StaticFieldTable) (k : Oop)
    (v : StaticFieldInfo) : tableGet (tablePut t k v) k = some v := by
  simp [tableGet, tablePut, List.find?]

theorem find?_filter_ne (k k' : Oop) (h : k' ≠ k) :
    ∀ t : StaticFieldTable,
      (t.filter (fun p => p.1 != k)).find? (fun p => p.1 == k') =
        t.find? (fun p => p.1 == k') := by
  intro t
  induction t with
  | nil => rfl
  | cons a rest ih =>
    by_cases ha : a.1 = k
    · have hk : (a.1 == k') = false := by
        rw [beq_eq_false_iff_ne]
        intro hq
        rw [ha] at hq
        exact h hq.symm
      have hf : (a.1 != k) = false := by simp [ha]
      simp only [List.filter_cons, hf, List.find?_cons, hk,
        Bool.false_eq_true, if_false]
      exact ih
    · have hf : (a.1 != k) = true := by simpa using ha
      simp only [List.filter_cons, hf, List.find?_cons, if_true]
      cases hk : (a.1 == k') with
      | true => rfl
      | false => exact ih

theorem tableGet_tablePut_ne (t : StaticFieldTable) (k k' : Oop)
    (v : StaticFieldInfo) (h : k' ≠ k) :
    tableGet (tablePut t k v) k' = tableGet t k' := by
  unfold tableGet tablePut
  have hk : (((k, v) : Oop × StaticFieldInfo).1 == k') = false := by
    rw [beq_eq_false_iff_ne]
    intro hq
    exact h hq.symm
  simp only [List.find?_cons, hk]
  rw [find?_filter_ne k k' h t]

theorem tableGet_isSome_tablePut (t : StaticFieldTable) (k o : Oop)
    (v : StaticFieldInfo) (h : (tableGet t o).isSome = true) :
    (tableGet (tablePut t k v) o).isSome = true := by
  by_cases ho : o = k
  · subst ho
    rw [tableGet_tablePut_self]
    rfl
  · rw [tableGet_tablePut_ne t k o v ho]
    exact h

theorem mem_tablePut (t : StaticFieldTable) (k : Oop) (v : StaticFieldInfo)
    (p : Oop × StaticFieldInfo) (h : p ∈ tablePut t k v) :
    p = (k, v) ∨ p ∈ t := by
  unfold tablePut at h
  rcases List.mem_cons.mp h with h | h
  · exact Or.inl h
  · exact Or.inr (List.mem_filter.mp h).1

theorem tableGet_mem (t : StaticFieldTable) (k : Oop) (v : StaticFieldInfo)
    (h : tableGet t k = some v) : (k, v) ∈ t := by
  unfold tableGet at h
  cases hf : t.find? (fun p => p.1 == k) with
  | none =>
    rw [hf] at h
    exact Option.noConfusion h
  | some p =>
    rw [hf] at h
    have hm := List.mem_of_find?_eq_some hf
    have hp := List.find?_some hf
    obtain ⟨p1, p2⟩ := p
    simp at h hp
    subst hp
    subst h
    exact hm

/-! Characterization of the per-field decision. -/

theorem fieldValueDecision_eq_some_iff (env : Env) (ik : Klass)
    (fd : FieldDesc) (w v : Oop) :
    fieldValueDecision env ik fd w = some v ↔
      w = v ∧ isExcluded ik.name fd.name = false ∧
      (fd.isFinal && isStringInstance env w && fd.hasInitialValue) = false ∧
      (fd.isFinal && isClassInstance env w) = false ∧
      valueKlassHasArchivedEnumObjs env w = false := by
  unfold fieldValueDecision
  by_cases h1 : isExcluded ik.name fd.name = true <;>
    by_cases h2 : (fd.isFinal && isStringInstance env w && fd.hasInitialValue) = true <;>
    by_cases h3 : (fd.isFinal && isClassInstance env w) = true <;>
    by_cases h4 : valueKlassHasArchivedEnumObjs env w = true <;>
    simp [h1, h2, h3, h4]

theorem fieldDecision_eq_some_iff (env : Env) (ik : Klass) (fd : FieldDesc)
    (v : Oop) :
    fieldDecision env ik fd = some v ↔
      fd.isStatic = true ∧ fd.fieldType = BasicType.tObject ∧
      objFieldAt env ik.mirror fd.offset = some v ∧
      isExcluded ik.name fd.name = false ∧
      (fd.isFinal && isStringInstance env v && fd.hasInitialValue) = false ∧
      (fd.isFinal && isClassInstance env v) = false ∧
      valueKlassHasArchivedEnumObjs env v = false := by
  unfold fieldDecision
  cases hv : objFieldAt env ik.mirror fd.offset with
  | none =>
    constructor
    · intro h
      by_cases hs : fd.isStatic = true <;>
        by_cases ht : fd.fieldType = BasicType.tObject <;>
        simp [hs, ht] at h
    · rintro ⟨-, -, hv', -⟩
      exact Option.noConfusion hv'
  | some w =>
    constructor
    · intro h
      by_cases hs : fd.isStatic = true
      swap
      · rw [if_neg hs] at h
        exact absurd h (by simp)
      by_cases ht : fd.fieldType = BasicType.tObject
      swap
      · rw [if_pos hs, if_neg ht] at h
        exact absurd h (by simp)
      rw [if_pos hs, if_pos ht] at h
      have h' : fieldValueDecision env ik fd w = some v := h
      obtain ⟨rfl, hex, h4, h5, h6⟩ :=
        (fieldValueDecision_eq_some_iff env ik fd w v).mp h'
      exact ⟨hs, ht, rfl, hex, h4, h5, h6⟩
    · rintro ⟨hs, ht, hv', hex, h4, h5, h6⟩
      obtain rfl : w = v := by simpa using hv'
      rw [if_pos hs, if_pos ht]
      exact (fieldValueDecision_eq_some_iff env ik fd _ _).mpr
        ⟨rfl, hex, h4, h5, h6⟩

/-! Provenance and completeness of the table build. -/

theorem scanStep_mem (env : Env) (ik : Klass) (ki : Nat)
    (t : StaticFieldTable) (fd : FieldDesc) (p : Oop × StaticFieldInfo)
    (h : p ∈ scanStep env ik ki t fd) :
    p ∈ t ∨ (fieldDecision env ik fd = some p.1 ∧
      p.2 = StaticFieldInfo.mk ki fd.name) := by
  unfold scanStep at h
  split at h
  · exact Or.inl h
  next v hv =>
    rcases mem_tablePut _ _ _ _ h with he | ht
    · subst he
      exact Or.inr ⟨hv, rfl⟩
    · exact Or.inl ht

theorem foldl_scanStep_mem (env : Env) (ik : Klass) (ki : Nat) :
    ∀ (fds : List FieldDesc) (t : StaticFieldTable) (p : Oop × StaticFieldInfo),
      p ∈ fds.foldl (scanStep env ik ki) t →
      p ∈ t ∨ ∃ fd ∈ fds, fieldDecision env ik fd = some p.1 ∧
        p.2 = StaticFieldInfo.mk ki fd.name := by
  intro fds
  induction fds with
  | nil => intro t p h; exact Or.inl h
  | cons fd rest ih =>
    intro t p h
    rw [List.foldl_cons] at h
    rcases ih _ p h with h1 | ⟨fd', hm, hd, hi⟩
    · rcases scanStep_mem env ik ki t fd p h1 with h2 | ⟨hd, hi⟩
      · exact Or.inl h2
      · exact Or.inr ⟨fd, List.mem_cons_self fd rest, hd, hi⟩
    · exact Or.inr ⟨fd', List.mem_cons_of_mem fd hm, hd, hi⟩

theorem tableGet_isSome_scanStep (env : Env) (ik : Klass) (ki : Nat)
    (t : StaticFieldTable) (fd : FieldDesc) (o : Oop)
    (h : (tableGet t o).isSome = true) :
    (tableGet (scanStep env ik ki t fd) o).isSome = true := by
  unfold scanStep
  split
  · exact h
  · exact tableGet_isSome_tablePut _ _ _ _ h

theorem tableGet_isSome_foldl_scanStep (env : Env) (ik : Klass) (ki : Nat) :
    ∀ (fds : List FieldDesc) (t : StaticFieldTable) (o : Oop),
      (tableGet t o).isSome = true →
      (tableGet (fds.foldl (scanStep env ik ki) t) o).isSome = true := by
  intro fds
  induction fds with
  | nil => intro t o h; exact h
  | cons fd rest ih =>
    intro t o h
    rw [List.foldl_cons]
    exact ih _ o (tableGet_isSome_scanStep env ik ki t fd o h)

theorem foldl_scanStep_key (env : Env) (ik : Klass) (ki : Nat)
    (fd : FieldDesc) (v : Oop) (hd : fieldDecision env ik fd = some v) :
    ∀ (fds : List FieldDesc) (t : StaticFieldTable), fd ∈ fds →
      (tableGet (fds.foldl (scanStep env ik ki) t) v).isSome = true := by
  intro fds
  induction fds with
  | nil => intro t hm; cases hm
  | cons f rest ih =>
    intro t hm
    rw [List.foldl_cons]
    rcases List.mem_cons.mp hm with rfl | hm'
    · apply tableGet_isSome_foldl_scanStep
      have hstep : scanStep env ik ki t fd = tablePut t v ⟨ki, fd.name⟩ := by
        unfold scanStep
        rw [hd]
      rw [hstep, tableGet_tablePut_self]
      rfl
    · exact ih (scanStep env ik ki t f) hm'

theorem do_klass_eq (env : Env) (t : StaticFieldTable) (ki : Nat) (ik : Klass)
    (hk : env.klasses.get? ki = some ik) (hik : ik.isInstanceKlass = true)
    (hroot : ik.isSubgraphRootClass = false) :
    do_klass env t ki = ik.fields.foldl (scanStep env ik ki) t := by
  unfold do_klass
  rw [hk]
  show (if ik.isInstanceKlass = true then
    (if ik.isSubgraphRootClass = true then t
     else ik.fields.foldl (scanStep env ik ki) t) else t) = _
  rw [if_pos hik, if_neg (by simp [hroot])]

theorem do_klass_eq_skip (env : Env) (t : StaticFieldTable) (ki : Nat)
    (h : env.klasses.get? ki = none ∨
      ∃ ik, env.klasses.get? ki = some ik ∧
        (ik.isInstanceKlass = false ∨ ik.isSubgraphRootClass = true)) :
    do_klass env t ki = t := by
  unfold do_klass
  rcases h with h | ⟨ik, hk, hskip⟩
  · rw [h]
  · rw [hk]
    show (if ik.isInstanceKlass = true then
      (if ik.isSubgraphRootClass = true then t
       else ik.fields.foldl (scanStep env ik ki) t) else t) = t
    rcases hskip with h1 | h1
    · rw [if_neg (by simp [h1])]
    · by_cases h2 : ik.isInstanceKlass = true
      · rw [if_pos h2, if_pos h1]
      · rw [if_neg h2]

theorem do_klass_mem (env : Env) (t : StaticFieldTable) (ki : Nat)
    (p : Oop × StaticFieldInfo) (h : p ∈ do_klass env t ki) :
    p ∈ t ∨ ∃ ik fd, env.klasses.get? ki = some ik ∧
      ik.isInstanceKlass = true ∧ ik.isSubgraphRootClass = false ∧
      fd ∈ ik.fields ∧ fieldDecision env ik fd = some p.1 ∧
      p.2 = StaticFieldInfo.mk ki fd.name := by
  unfold do_klass at h
  split at h
  · exact Or.inl h
  next ik hk =>
    split at h
    next hik =>
      split at h
      next hroot => exact Or.inl h
      next hroot =>
        rcases foldl_scanStep_mem env ik ki ik.fields t p h with
          h1 | ⟨fd, hm, hd, hi⟩
        · exact Or.inl h1
        · exact Or.inr ⟨ik, fd, hk, hik, by simpa using hroot, hm, hd, hi⟩
    next hik => exact Or.inl h

theorem tableGet_isSome_do_klass (env : Env) (t : StaticFieldTable)
    (ki : Nat) (o : Oop) (h : (tableGet t o).isSome = true) :
    (tableGet (do_klass env t ki) o).isSome = true := by
  unfold do_klass
  split
  · exact h
  next ik hk =>
    split
    next hik =>
      split
      next hroot => exact h
      next hroot => exact tableGet_isSome_foldl_scanStep env ik ki ik.fields t o h
    next hik => exact h

theorem do_klass_key (env : Env) (t : StaticFieldTable) (ki : Nat)
    (ik : Klass) (fd : FieldDesc) (v : Oop)
    (hk : env.klasses.get? ki = some ik) (hik : ik.isInstanceKlass = true)
    (hroot : ik.isSubgraphRootClass = false) (hm : fd ∈ ik.fields)
    (hd : fieldDecision env ik fd = some v) :
    (tableGet (do_klass env t ki) v).isSome = true := by
  rw [do_klass_eq env t ki ik hk hik hroot]
  exact foldl_scanStep_key env ik ki fd v hd ik.fields t hm

theorem foldl_do_klass_mem (env : Env) :
    ∀ (l : List Nat) (t : StaticFieldTable) (p : Oop × StaticFieldInfo),
      p ∈ l.foldl (do_klass env) t →
      p ∈ t ∨ ∃ ki ∈ l, ∃ ik fd, env.klasses.get? ki = some ik ∧
        ik.isInstanceKlass = true ∧ ik.isSubgraphRootClass = false ∧
        fd ∈ ik.fields ∧ fieldDecision env ik fd = some p.1 ∧
        p.2 = StaticFieldInfo.mk ki fd.name := by
  intro l
  induction l with
  | nil => intro t p h; exact Or.inl h
  | cons ki rest ih =>
    intro t p h
    rw [List.foldl_cons] at h
    rcases ih _ p h with h1 | ⟨ki', hm, rest'⟩
    · rcases do_klass_mem env t ki p h1 with h2 | h2
      · exact Or.inl h2
      · exact Or.inr ⟨ki, List.mem_cons_self ki rest, h2⟩
    · exact Or.inr ⟨ki', List.mem_cons_of_mem ki hm, rest'⟩

theorem tableGet_isSome_foldl_do_klass (env : Env) :
    ∀ (l : List Nat) (t : StaticFieldTable) (o : Oop),
      (tableGet t o).isSome = true →
      (tableGet (l.foldl (do_klass env) t) o).isSome = true := by
  intro l
  induction l with
  | nil => intro t o h; exact h
  | cons ki rest ih =>
    intro t o h
    rw [List.foldl_cons]
    exact ih _ o (tableGet_isSome_do_klass env t ki o h)

theorem buildTable_mem (env : Env) (p : Oop × StaticFieldInfo)
    (h : p ∈ buildTable env) :
    ∃ ik fd, env.klasses.get? p.2.holder = some ik ∧
      ik.isInstanceKlass = true ∧ ik.isSubgraphRootClass = false ∧
      fd ∈ ik.fields ∧ fd.name = p.2.name ∧
      fieldDecision env ik fd = some p.1 := by
  unfold buildTable at h
  rcases foldl_do_klass_mem env (List.range env.klasses.length) [] p h with
    h1 | ⟨ki, _, ik, fd, hk, hik, hroot, hm, hd, hi⟩
  · cases h1
  · rw [hi]
    exact ⟨ik, fd, hk, hik, hroot, hm, rfl, hd⟩

theorem buildTable_key (env : Env) (ki : Nat) (ik : Klass) (fd : FieldDesc)
    (v : Oop) (hk : env.klasses.get? ki = some ik)
    (hik : ik.isInstanceKlass = true) (hroot : ik.isSubgraphRootClass = false)
    (hm : fd ∈ ik.fields) (hd : fieldDecision env ik fd = some v) :
    (tableGet (buildTable env) v).isSome = true := by
  unfold buildTable
  have hki : ki ∈ List.range env.klasses.length := by
    rw [List.mem_range]
    by_contra hlt
    rw [List.get?_eq_none.mpr (by omega)] at hk
    exact Option.noConfusion hk
  obtain ⟨l1, l2, hsplit⟩ := List.append_of_mem hki
  rw [hsplit, List.foldl_append, List.foldl_cons]
  apply tableGet_isSome_foldl_do_klass
  exact do_klass_key env _ ki ik fd v hk hik hroot hm hd

theorem tableOrigin_unique (env : Env) (ci : Nat) (ik : Klass)
    (hk : env.klasses.get? ci = some ik)
    (hnames : (ik.fields.map FieldDesc.name).Nodup)
    (w w' : Oop) (n : String)
    (h1 : tableGet (buildTable env) w = some (StaticFieldInfo.mk ci n))
    (h2 : tableGet (buildTable env) w' = some (StaticFieldInfo.mk ci n)) :
    w = w' := by
  obtain ⟨ik1, fd1, hk1, -, -, hm1, hn1, hd1⟩ :=
    buildTable_mem env (w, StaticFieldInfo.mk ci n) (tableGet_mem _ _ _ h1)
  obtain ⟨ik2, fd2, hk2, -, -, hm2, hn2, hd2⟩ :=
    buildTable_mem env (w', StaticFieldInfo.mk ci n) (tableGet_mem _ _ _ h2)
  have e1 : ik1 = ik := Option.some.inj (hk1.symm.trans hk)
  have e2 : ik2 = ik := Option.some.inj (hk2.symm.trans hk)
  subst e1
  subst e2
  have ef : fd1 = fd2 :=
    List.inj_on_of_nodup_map hnames hm1 hm2 (hn1.trans hn2.symm)
  rw [ef] at hd1
  exact Option.some.inj (hd1.symm.trans hd2)

/-! Reduction equations and totality of the tracer. -/

theorem trace_eq_root_plain (env : Env) (cache : Cache) (fuel : Nat) (o : Oop)
    (f : Option Oop) (p : CachedOopInfo) (hr : p.referrer = none)
    (hstr : isStringInstance env o = false) :
    trace_to_root env cache (fuel + 1) o f p = some (0, [hopLine env 0 o f]) := by
  simp only [trace_to_root, hr, hstr, Bool.false_eq_true, if_false]

theorem trace_eq_root_string (env : Env) (cache : Cache) (fuel : Nat) (o : Oop)
    (f : Option Oop) (p : CachedOopInfo) (hr : p.referrer = none)
    (hstr : isStringInstance env o = true) :
    trace_to_root env cache (fuel + 1) o f p =
      some (1, [LogLine.stringTableHop 0, hopLine env 1 o f]) := by
  simp only [trace_to_root, hr, hstr, if_true]

theorem trace_eq_step (env : Env) (cache : Cache) (fuel : Nat) (o : Oop)
    (f : Option Oop) (p : CachedOopInfo) (r : Oop) (ref : CachedOopInfo)
    (hr : p.referrer = some r) (hg : cacheGet cache r = some ref) :
    trace_to_root env cache (fuel + 1) o f p =
      (trace_to_root env cache fuel r (some o) ref).map
        (fun q => (q.1 + 1, q.2 ++ [hopLine env (q.1 + 1) o f])) := by
  simp only [trace_to_root, hr, hg]
  cases trace_to_root env cache fuel r (some o) ref with
  | none => rfl
  | some q => cases q; rfl

theorem trace_eq_step_fail (env : Env) (cache : Cache) (fuel : Nat) (o : Oop)
    (f : Option Oop) (p : CachedOopInfo) (r : Oop)
    (hr : p.referrer = some r) (hg : cacheGet cache r = none) :
    trace_to_root env cache (fuel + 1) o f p = none := by
  simp only [trace_to_root, hr, hg]

theorem trace_some_root (env : Env) (cache : Cache) (fuel : Nat) (o : Oop)
    (f : Option Oop) (p : CachedOopInfo) (hr : p.referrer = none) :
    ∃ q, trace_to_root env cache (fuel + 1) o f p = some q := by
  cases hstr : isStringInstance env o with
  | false => exact ⟨_, trace_eq_root_plain env cache fuel o f p hr hstr⟩
  | true => exact ⟨_, trace_eq_root_string env cache fuel o f p hr hstr⟩

theorem trace_some (env : Env) (cache : Cache) :
    ∀ (fuel : Nat) (o : Oop) (f : Option Oop) (p : CachedOopInfo),
      chainOk cache fuel p.referrer = true →
      ∃ q, trace_to_root env cache (fuel + 1) o f p = some q := by
  intro fuel
  induction fuel with
  | zero =>
    intro o f p hc
    cases hr : p.referrer with
    | none => exact trace_some_root env cache 0 o f p hr
    | some r =>
      rw [hr] at hc
      simp [chainOk] at hc
  | succ fuel ih =>
    intro o f p hc
    cases hr : p.referrer with
    | none => exact trace_some_root env cache (fuel + 1) o f p hr
    | some r =>
      rw [hr] at hc
      cases hg : cacheGet cache r with
      | none => simp [chainOk, hg] at hc
      | some ref =>
        simp only [chainOk, hg] at hc
        obtain ⟨q, hrec⟩ := ih r (some o) ref hc
        refine ⟨(q.1 + 1, q.2 ++ [hopLine env (q.1 + 1) o f]), ?_⟩
        rw [trace_eq_step env cache (fuel + 1) o f p r ref hr hg, hrec]
        rfl


theorem trace_lines_shape (env : Env) (cache : Cache) :
    ∀ (fuel : Nat) (o : Oop) (f : Option Oop) (p : CachedOopInfo)
      (lvl : Nat) (lines : List LogLine),
      trace_to_root env cache fuel o f p = some (lvl, lines) →
      ∀ x ∈ lines, isTraceLine x = true := by
  intro fuel
  induction fuel with
  | zero =>
    intro o f p lvl lines h
    exact absurd h (by simp [trace_to_root])
  | succ fuel ih =>
    intro o f p lvl lines h
    cases hr : p.referrer with
    | none =>
      cases hstr : isStringInstance env o with
      | false =>
        rw [trace_eq_root_plain env cache fuel o f p hr hstr] at h
        simp only [Option.some.injEq, Prod.mk.injEq] at h
        obtain ⟨rfl, rfl⟩ := h
        intro x hx
        rcases List.mem_singleton.mp hx with rfl
        rfl
      | true =>
        rw [trace_eq_root_string env cache fuel o f p hr hstr] at h
        simp only [Option.some.injEq, Prod.mk.injEq] at h
        obtain ⟨rfl, rfl⟩ := h
        intro x hx
        rcases List.mem_cons.mp hx with rfl | hx
        · rfl
        · rcases List.mem_singleton.mp hx with rfl
          rfl
    | some r =>
      cases hg : cacheGet cache r with
      | none =>
        rw [trace_eq_step_fail env cache fuel o f p r hr hg] at h
        exact Option.noConfusion h
      | some ref =>
        rw [trace_eq_step env cache fuel o f p r ref hr hg] at h
        cases hrec : trace_to_root env cache fuel r (some o) ref with
        | none =>
          rw [hrec] at h
          exact Option.noConfusion h
        | some q =>
          obtain ⟨lvl0, lines0⟩ := q
          rw [hrec] at h
          simp only [Option.map_some', Option.some.injEq, Prod.mk.injEq] at h
          obtain ⟨rfl, rfl⟩ := h
          intro x hx
          rcases List.mem_append.mp hx with hx | hx
          · exact ih r (some o) ref lvl0 lines0 hrec x hx
          · rcases List.mem_singleton.mp hx with rfl
            rfl

/-! Log-extraction lemmas. -/

theorem join_cons {α : Type} (x : List α) (xs : List (List α)) :
    (x :: xs).join = x ++ xs.join := rfl

theorem option_some_bind {α β : Type} (a : α) (f : α → Option β) :
    (some a >>= f) = f a := rfl

theorem logViolations_append :
    ∀ (l1 l2 : List LogLine),
      (∀ o, l2.head? ≠ some (LogLine.valueLine o)) →
      logViolations (l1 ++ l2) = logViolations l1 ++ logViolations l2 := by
  intro l1
  induction l1 with
  | nil => intro l2 _; rfl
  | cons a l ih =>
    intro l2 h
    cases a with
    | fieldId hh nn =>
      cases l with
      | nil =>
        cases hh2 : l2.head? with
        | none =>
          cases l2 with
          | nil => rfl
          | cons b l2x => exact absurd hh2 (by simp)
        | some x =>
          cases x <;> first
            | exact absurd hh2 (h _)
            | simp [logViolations, hh2]
      | cons b lx =>
        have hih := ih l2 h
        simp only [List.cons_append] at hih ⊢
        simp only [logViolations, List.head?_cons]
        rw [hih, List.append_assoc]
    | header => simpa only [List.cons_append, logViolations] using ih l2 h
    | valueLine o => simpa only [List.cons_append, logViolations] using ih l2 h
    | traceBegin => simpa only [List.cons_append, logViolations] using ih l2 h
    | traceEnd => simpa only [List.cons_append, logViolations] using ih l2 h
    | stringTableHop lv =>
      simpa only [List.cons_append, logViolations] using ih l2 h
    | hop lv o kn sel =>
      simpa only [List.cons_append, logViolations] using ih l2 h
    | summary n m => simpa only [List.cons_append, logViolations] using ih l2 h

theorem logViolations_eq_nil :
    ∀ (l : List LogLine), (∀ hh nn, LogLine.fieldId hh nn ∉ l) →
      logViolations l = [] := by
  intro l
  induction l with
  | nil => intro h; rfl
  | cons a rest ih =>
    intro h
    cases a <;> first
      | exact absurd (List.mem_cons_self _ _) (h _ _)
      | (simp only [logViolations]
         exact ih fun hh nn hm => h hh nn (List.mem_cons_of_mem _ hm))

theorem entryLog_eq_miss (env : Env) (cache : Cache) (t : StaticFieldTable)
    (e : Oop × CachedOopInfo) (hg : tableGet t e.1 = none) :
    entryLog env cache t e = [] := by
  unfold entryLog
  rw [hg]

theorem entryLog_eq_hit (env : Env) (cache : Cache) (t : StaticFieldTable)
    (e : Oop × CachedOopInfo) (info : StaticFieldInfo) (q : Nat × List LogLine)
    (hg : tableGet t e.1 = some info)
    (htr : trace_to_root env cache (cache.length + 1) e.1 none e.2 = some q) :
    entryLog env cache t e =
      [LogLine.header, LogLine.fieldId info.holder info.name,
       LogLine.valueLine e.1, LogLine.traceBegin] ++ q.2 ++
      [LogLine.traceEnd] := by
  unfold entryLog
  rw [hg, htr]
  rfl

theorem entryLog_head_hit (env : Env) (cache : Cache) (t : StaticFieldTable)
    (e : Oop × CachedOopInfo) (info : StaticFieldInfo)
    (hg : tableGet t e.1 = some info) :
    (entryLog env cache t e).head? = some LogLine.header := by
  unfold entryLog
  rw [hg]
  rfl

theorem do_entry_eq_miss (env : Env) (cache : Cache) (t : StaticFieldTable)
    (st : VState) (e : Oop × CachedOopInfo) (hg : tableGet t e.1 = none) :
    do_entry env cache t st e =
      some { st with archived_objs := st.archived_objs + 1 } := by
  unfold do_entry
  rw [hg]

theorem do_entry_eq_hit (env : Env) (cache : Cache) (t : StaticFieldTable)
    (st : VState) (e : Oop × CachedOopInfo) (info : StaticFieldInfo)
    (q : Nat × List LogLine) (hg : tableGet t e.1 = some info)
    (htr : trace_to_root env cache (cache.length + 1) e.1 none e.2 = some q) :
    do_entry env cache t st e = some
      { archived_objs := st.archived_objs + 1,
        problems := st.problems + 1,
        log := st.log ++
          [LogLine.header, LogLine.fieldId info.holder info.name,
           LogLine.valueLine e.1, LogLine.traceBegin] ++ q.2 ++
          [LogLine.traceEnd] } := by
  unfold do_entry
  rw [hg, htr]

/-! Characterization of the checker run. -/

theorem runCheckerAux (env : Env) (cache : Cache) (t : StaticFieldTable) :
    ∀ (l : List (Oop × CachedOopInfo)) (st : VState),
      (∀ e ∈ l, ∀ info, tableGet t e.1 = some info →
        ∃ q, trace_to_root env cache (cache.length + 1) e.1 none e.2 = some q) →
      List.foldlM (do_entry env cache t) st l =
        some { archived_objs := st.archived_objs + l.length,
               problems := st.problems +
                 l.countP (fun e => (tableGet t e.1).isSome),
               log := st.log ++ (l.map (entryLog env cache t)).join } := by
  intro l
  induction l with
  | nil =>
    intro st h
    simp
  | cons e rest ih =>
    intro st h
    rw [List.foldlM_cons]
    cases hg : tableGet t e.1 with
    | none =>
      rw [do_entry_eq_miss env cache t st e hg, option_some_bind,
        ih _ (fun e2 hm => h e2 (List.mem_cons_of_mem _ hm))]
      simp only [Option.some.injEq, VState.mk.injEq]
      refine ⟨by simp only [List.length_cons]; omega, ?_, ?_⟩
      · rw [List.countP_cons]
        simp [hg]
      · rw [List.map_cons, join_cons, entryLog_eq_miss env cache t e hg,
          List.nil_append]
    | some info =>
      obtain ⟨q, htr⟩ := h e (List.mem_cons_self e rest) info hg
      rw [do_entry_eq_hit env cache t st e info q hg htr, option_some_bind,
        ih _ (fun e2 hm => h e2 (List.mem_cons_of_mem _ hm))]
      simp only [Option.some.injEq, VState.mk.injEq]
      refine ⟨by simp only [List.length_cons]; omega, ?_, ?_⟩
      · rw [List.countP_cons]
        simp only [hg, Option.isSome_some, if_true]
        omega
      · rw [List.map_cons, join_cons,
          entryLog_eq_hit env cache t e info q hg htr]
        simp [List.append_assoc]

theorem runChecker_eq (env : Env) (cache : Cache) (t : StaticFieldTable)
    (h : ∀ e ∈ cache, ∀ info, tableGet t e.1 = some info →
      ∃ q, trace_to_root env cache (cache.length + 1) e.1 none e.2 = some q) :
    runChecker env cache t = some
      { archived_objs := cache.length,
        problems := cache.countP (fun e => (tableGet t e.1).isSome),
        log := (cache.map (entryLog env cache t)).join } := by
  unfold runChecker
  rw [runCheckerAux env cache t cache ⟨0, 0, []⟩ h]
  simp

theorem cacheWF_chains (cache : Cache) (hwf : cacheWF cache = true) :
    ∀ e ∈ cache, chainOk cache cache.length e.2.referrer = true := by
  intro e hm
  exact List.all_eq_true.mp hwf e hm

theorem cacheWF_hyp (env : Env) (cache : Cache) (t : StaticFieldTable)
    (hwf : cacheWF cache = true) :
    ∀ e ∈ cache, ∀ info, tableGet t e.1 = some info →
      ∃ q, trace_to_root env cache (cache.length + 1) e.1 none e.2 = some q := by
  intro e hm info _
  exact trace_some env cache cache.length e.1 none e.2
    (cacheWF_chains cache hwf e hm)


theorem verify_eq (env : Env) (cache : Cache) (hwf : cacheWF cache = true) :
    verify env cache = some
      { archived_objs := cache.length,
        problems := cache.countP
          (fun e => (tableGet (buildTable env) e.1).isSome),
        log := (cache.map (entryLog env cache (buildTable env))).join ++
          (if 0 < cache.countP
              (fun e => (tableGet (buildTable env) e.1).isSome) then
            [LogLine.summary cache.length
              (cache.countP
                (fun e => (tableGet (buildTable env) e.1).isSome))]
           else []) } := by
  unfold verify
  rw [runChecker_eq env cache (buildTable env)
    (cacheWF_hyp env cache (buildTable env) hwf)]

theorem entryLog_join_head (env : Env) (cache : Cache) (t : StaticFieldTable) :
    ∀ (l : List (Oop × CachedOopInfo)) (o : Oop),
      ((l.map (entryLog env cache t)).join).head? ≠
        some (LogLine.valueLine o) := by
  intro l
  induction l with
  | nil => intro o h; exact Option.noConfusion h
  | cons e rest ih =>
    intro o
    rw [List.map_cons, join_cons]
    cases hg : tableGet t e.1 with
    | none =>
      rw [entryLog_eq_miss env cache t e hg, List.nil_append]
      exact ih o
    | some info =>
      have hh := entryLog_head_hit env cache t e info hg
      have hne : entryLog env cache t e ≠ [] := by
        intro hnil
        rw [hnil] at hh
        exact Option.noConfusion hh
      rw [List.head?_append_of_ne_nil _ hne, hh]
      simp

theorem logViolations_entryLog_join (env : Env) (cache : Cache)
    (t : StaticFieldTable) :
    ∀ (l : List (Oop × CachedOopInfo)),
      (∀ e ∈ l, ∀ info, tableGet t e.1 = some info →
        ∃ q, trace_to_root env cache (cache.length + 1) e.1 none e.2 = some q) →
      logViolations ((l.map (entryLog env cache t)).join) =
        l.filterMap (violationOf t) := by
  intro l
  induction l with
  | nil => intro h; rfl
  | cons e rest ih =>
    intro h
    rw [List.map_cons, join_cons,
      logViolations_append _ _ (entryLog_join_head env cache t rest),
      ih (fun e2 hm => h e2 (List.mem_cons_of_mem _ hm))]
    cases hg : tableGet t e.1 with
    | none =>
      rw [entryLog_eq_miss env cache t e hg,
        List.filterMap_cons_none (by simp [violationOf, hg])]
      rfl
    | some info =>
      obtain ⟨q, htr⟩ := h e (List.mem_cons_self e rest) info hg
      have hfm : violationOf t e =
          some (Violation.mk info.holder info.name e.1) := by
        simp [violationOf, hg]
      have hnil : logViolations (q.2 ++ [LogLine.traceEnd]) = [] := by
        apply logViolations_eq_nil
        intro hh nn hm
        rcases List.mem_append.mp hm with hm | hm
        · have hsh := trace_lines_shape env cache (cache.length + 1) e.1 none
            e.2 q.1 q.2 (by rw [htr]) _ hm
          simp [isTraceLine] at hsh
        · rcases List.mem_singleton.mp hm with h2
          exact LogLine.noConfusion h2
      have hblock : logViolations
          ([LogLine.header, LogLine.fieldId info.holder info.name,
            LogLine.valueLine e.1, LogLine.traceBegin] ++ q.2 ++
           [LogLine.traceEnd]) =
          [Violation.mk info.holder info.name e.1] := by
        show logViolations (LogLine.header ::
          LogLine.fieldId info.holder info.name ::
          LogLine.valueLine e.1 :: LogLine.traceBegin ::
          (q.2 ++ [LogLine.traceEnd])) = _
        simp only [logViolations, List.head?_cons]
        rw [hnil]
        rfl
      rw [entryLog_eq_hit env cache t e info q hg htr, hblock,
        List.filterMap_cons_some hfm]
      rfl

theorem filterMap_violation_length (t : StaticFieldTable) :
    ∀ (l : Cache), (l.filterMap (violationOf t)).length =
      l.countP (fun e => (tableGet t e.1).isSome) := by
  intro l
  induction l with
  | nil => rfl
  | cons e rest ih =>
    rw [List.countP_cons]
    cases hg : tableGet t e.1 with
    | none =>
      rw [List.filterMap_cons_none (by simp [violationOf, hg])]
      simp [hg, ih]
    | some info =>
      rw [List.filterMap_cons_some
        (show violationOf t e = some (Violation.mk info.holder info.name e.1)
         by simp [violationOf, hg])]
      simp [hg, ih]

theorem entryLog_no_summary (env : Env) (cache : Cache)
    (t : StaticFieldTable) (e : Oop × CachedOopInfo) (n m : Nat) :
    LogLine.summary n m ∉ entryLog env cache t e := by
  unfold entryLog
  cases hg : tableGet t e.1 with
  | none => simp
  | some info =>
    intro hm
    rcases List.mem_append.mp hm with hm | hm
    · rcases List.mem_append.mp hm with hm | hm
      · simp at hm
      · cases htr : trace_to_root env cache (cache.length + 1) e.1 none e.2 with
        | none =>
          rw [htr] at hm
          simp at hm
        | some q =>
          rw [htr] at hm
          have hsh := trace_lines_shape env cache (cache.length + 1) e.1 none
            e.2 q.1 q.2 (by rw [htr]) _ hm
          simp [isTraceLine] at hsh
    · simp at hm

theorem join_no_summary (env : Env) (cache : Cache) (t : StaticFieldTable)
    (l : List (Oop × CachedOopInfo)) (n m : Nat) :
    LogLine.summary n m ∉ (l.map (entryLog env cache t)).join := by
  intro hm
  rw [List.mem_join] at hm
  obtain ⟨li, hli, hx⟩ := hm
  rw [List.mem_map] at hli
  obtain ⟨e, he, rfl⟩ := hli
  exact entryLog_no_summary env cache t e n m hx

theorem containsSummary_eq_false (l : List LogLine)
    (h : ∀ n m, LogLine.summary n m ∉ l) : containsSummary l = false := by
  unfold containsSummary
  rw [List.any_eq_false]
  intro x hx
  cases x <;> first
    | exact absurd hx (h _ _)
    | simp

theorem verify_state (env : Env) (cache : Cache) (hwf : cacheWF cache = true)
    (st : VState) (hv : verify env cache = some st) :
    logViolations st.log = cache.filterMap (violationOf (buildTable env)) ∧
    st.archived_objs = cache.length ∧
    st.problems = cache.countP
      (fun e => (tableGet (buildTable env) e.1).isSome) ∧
    st.problems = (logViolations st.log).length ∧
    (containsSummary st.log = true ↔ 0 < st.problems) ∧
    (0 < st.problems →
      st.log.getLast? = some (LogLine.summary st.archived_objs st.problems)) := by
  rw [verify_eq env cache hwf] at hv
  obtain rfl := Option.some.inj hv
  have hhyp := cacheWF_hyp env cache (buildTable env) hwf
  have hS : ∀ o, (if 0 < cache.countP
      (fun e => (tableGet (buildTable env) e.1).isSome) then
      [LogLine.summary cache.length (cache.countP
        (fun e => (tableGet (buildTable env) e.1).isSome))] else []).head? ≠
      some (LogLine.valueLine o) := by
    intro o
    split <;> simp
  have hSv : logViolations (if 0 < cache.countP
      (fun e => (tableGet (buildTable env) e.1).isSome) then
      [LogLine.summary cache.length (cache.countP
        (fun e => (tableGet (buildTable env) e.1).isSome))] else []) = [] := by
    split <;> rfl
  have h1 : logViolations
      ((cache.map (entryLog env cache (buildTable env))).join ++
        (if 0 < cache.countP
            (fun e => (tableGet (buildTable env) e.1).isSome) then
          [LogLine.summary cache.length (cache.countP
            (fun e => (tableGet (buildTable env) e.1).isSome))] else [])) =
      cache.filterMap (violationOf (buildTable env)) := by
    rw [logViolations_append _ _ hS, hSv, List.append_nil,
      logViolations_entryLog_join env cache (buildTable env) cache hhyp]
  have hJ : containsSummary
      ((cache.map (entryLog env cache (buildTable env))).join) = false :=
    containsSummary_eq_false _
      (fun n m => join_no_summary env cache (buildTable env) cache n m)
  refine ⟨h1, rfl, rfl, ?_, ?_, ?_⟩
  · show cache.countP (fun e => (tableGet (buildTable env) e.1).isSome) = _
    rw [h1, filterMap_violation_length]
  · by_cases hp : 0 < cache.countP
      (fun e => (tableGet (buildTable env) e.1).isSome)
    · constructor
      · intro _
        exact hp
      · intro _
        rw [if_pos hp]
        unfold containsSummary
        rw [List.any_append]
        simp
    · constructor
      · intro hc
        rw [if_neg hp, List.append_nil] at hc
        exact absurd (hJ.symm.trans hc) (by simp)
      · intro hp2
        exact absurd hp2 hp
  · intro hp
    rw [if_pos hp]
    exact List.getLast?_concat _


/-! Structure of the printed trace. -/


theorem trace_invariant (env : Env) (cache : Cache) :
    ∀ (fuel : Nat) (o : Oop) (f : Option Oop) (p : CachedOopInfo)
      (lvl : Nat) (lines : List LogLine),
      trace_to_root env cache fuel o f p = some (lvl, lines) →
      cacheGet cache o = some p →
      lines ≠ [] ∧
      lines.getLast? = some (hopLine env lvl o f) ∧
      (lines.head? = some (LogLine.stringTableHop 0) ∨
        ∃ r kn sel pr, lines.head? = some (LogLine.hop 0 r kn sel) ∧
          cacheGet cache r = some pr ∧ pr.referrer = none) ∧
      List.Chain' (hopStep env) lines := by
  intro fuel
  induction fuel with
  | zero =>
    intro o f p lvl lines h hcg
    exact absurd h (by simp [trace_to_root])
  | succ fuel ih =>
    intro o f p lvl lines h hcg
    cases hr : p.referrer with
    | none =>
      cases hstr : isStringInstance env o with
      | false =>
        rw [trace_eq_root_plain env cache fuel o f p hr hstr] at h
        simp only [Option.some.injEq, Prod.mk.injEq] at h
        obtain ⟨rfl, rfl⟩ := h
        refine ⟨by simp, rfl, ?_, List.chain'_singleton _⟩
        exact Or.inr ⟨o, _, _, p, rfl, hcg, hr⟩
      | true =>
        rw [trace_eq_root_string env cache fuel o f p hr hstr] at h
        simp only [Option.some.injEq, Prod.mk.injEq] at h
        obtain ⟨rfl, rfl⟩ := h
        refine ⟨by simp, rfl, Or.inl rfl, ?_⟩
        rw [List.chain'_cons]
        refine ⟨?_, List.chain'_singleton _⟩
        intro lp pa knp selp lc c knc selc hla hlb
        exact LogLine.noConfusion hla
    | some r =>
      cases hg : cacheGet cache r with
      | none =>
        rw [trace_eq_step_fail env cache fuel o f p r hr hg] at h
        exact Option.noConfusion h
      | some ref =>
        rw [trace_eq_step env cache fuel o f p r ref hr hg] at h
        cases hrec : trace_to_root env cache fuel r (some o) ref with
        | none =>
          rw [hrec] at h
          exact Option.noConfusion h
        | some q =>
          obtain ⟨lvl0, lines0⟩ := q
          rw [hrec] at h
          simp only [Option.map_some', Option.some.injEq, Prod.mk.injEq] at h
          obtain ⟨rfl, rfl⟩ := h
          obtain ⟨hne, hlast, hhead, hchain⟩ :=
            ih r (some o) ref lvl0 lines0 hrec hg
          refine ⟨by simp, List.getLast?_concat _, ?_, ?_⟩
          · rw [List.head?_append_of_ne_nil _ hne]
            exact hhead
          · rw [List.chain'_append]
            refine ⟨hchain, List.chain'_singleton _, ?_⟩
            intro x hx y hy
            rw [hlast] at hx
            simp only [List.head?_cons, Option.mem_def,
              Option.some.injEq] at hx hy
            subst hx
            subst hy
            intro lp pa knp selp lc c knc selc hla hlb
            injection hla with e1 e2 e3 e4
            injection hlb with g1 g2 g3 g4
            subst e1
            subst e2
            subst e3
            subst e4
            subst g1
            subst g2
            subst g3
            subst g4
            exact ⟨rfl, rfl⟩


/-! Characterization of the hop selector. -/

theorem traceFieldMatches_iff (env : Env) (parent child : Oop)
    (fd : FieldDesc) :
    traceFieldMatches env parent child fd = true ↔
      fd.isStatic = false ∧
      (fd.fieldType = BasicType.tObject ∨ fd.fieldType = BasicType.tArray) ∧
      objFieldAt env parent fd.offset = some child := by
  unfold traceFieldMatches
  simp [and_assoc]

theorem selOf_field_spec (env : Env) (parent child : Oop) (n : String)
    (off : Nat) (hs : selOf env parent child = some (Selector.field n off)) :
    ∃ k, oopKlass env parent = some k ∧ k.isInstanceKlass = true ∧
      ∃ i fd, k.fields.get? i = some fd ∧ fd.name = n ∧ fd.offset = off ∧
        traceFieldMatches env parent child fd = true ∧
        ∀ j, j < i → ∀ fd2, k.fields.get? j = some fd2 →
          traceFieldMatches env parent child fd2 = false := by
  unfold selOf at hs
  split at hs
  · exact Option.noConfusion hs
  next k hk =>
    split at hs
    next hik =>
      cases hf : k.fields.find? (traceFieldMatches env parent child) with
      | none =>
        rw [hf] at hs
        exact Option.noConfusion hs
      | some fd =>
        rw [hf] at hs
        simp only [Option.map_some', Option.some.injEq] at hs
        injection hs with hn hoff
        obtain ⟨i, hget, hp, hfirst⟩ := find?_first _ k.fields fd hf
        exact ⟨k, hk, hik, i, fd, hget, hn, hoff, hp, hfirst⟩
    next hik =>
      split at hs
      · exact Option.noConfusion hs
      next od hod =>
        cases ha : arrayIndexOf child od.arrayElems with
        | none =>
          rw [ha] at hs
          exact Option.noConfusion hs
        | some i =>
          rw [ha] at hs
          simp at hs

theorem selOf_elem_spec (env : Env) (parent child : Oop) (i : Nat)
    (hs : selOf env parent child = some (Selector.elem i)) :
    ∃ k od, oopKlass env parent = some k ∧ k.isInstanceKlass = false ∧
      env.obj parent = some od ∧
      od.arrayElems.get? i = some (some child) ∧
      ∀ j, j < i → od.arrayElems.get? j ≠ some (some child) := by
  unfold selOf at hs
  split at hs
  · exact Option.noConfusion hs
  next k hk =>
    split at hs
    next hik =>
      cases hf : k.fields.find? (traceFieldMatches env parent child) with
      | none =>
        rw [hf] at hs
        exact Option.noConfusion hs
      | some fd =>
        rw [hf] at hs
        simp at hs
    next hik =>
      split at hs
      · exact Option.noConfusion hs
      next od hod =>
        cases ha : arrayIndexOf child od.arrayElems with
        | none =>
          rw [ha] at hs
          exact Option.noConfusion hs
        | some i0 =>
          rw [ha] at hs
          simp only [Option.map_some', Option.some.injEq] at hs
          injection hs with hi
          subst hi
          obtain ⟨h1, h2⟩ := arrayIndexOf_first child od.arrayElems i0 ha
          exact ⟨k, od, hk, by simpa using hik, hod, h1, h2⟩

theorem arrayIndexOf_none (child : Oop) :
    ∀ (l : List (Option Oop)), (∀ e ∈ l, e ≠ some child) →
      arrayIndexOf child l = none := by
  intro l
  induction l with
  | nil => intro h; rfl
  | cons e rest ih =>
    intro h
    unfold arrayIndexOf
    rw [if_neg (by simpa using h e (List.mem_cons_self e rest)),
      ih (fun e2 hm => h e2 (List.mem_cons_of_mem _ hm))]
    rfl

theorem selOf_none_of_no_field_match (env : Env) (parent child : Oop)
    (k : Klass) (hk : oopKlass env parent = some k)
    (hik : k.isInstanceKlass = true)
    (hnone : ∀ fd ∈ k.fields, traceFieldMatches env parent child fd = false) :
    selOf env parent child = none := by
  simp only [selOf, hk]
  rw [if_pos hik, List.find?_eq_none.mpr (fun fd hm => by simp [hnone fd hm])]
  rfl

theorem selOf_none_of_no_elem_match (env : Env) (parent child : Oop)
    (k : Klass) (od : ObjDesc) (hk : oopKlass env parent = some k)
    (hik : k.isInstanceKlass = false) (hod : env.obj parent = some od)
    (hnone : ∀ e ∈ od.arrayElems, e ≠ some child) :
    selOf env parent child = none := by
  simp only [selOf, hk, hod]
  rw [if_neg (by simp [hik]), arrayIndexOf_none child od.arrayElems hnone]
  rfl

/-! Cache lookup under permutation. -/

theorem cacheGet_mem (cache : Cache) (o : Oop) (p : CachedOopInfo)
    (h : cacheGet cache o = some p) : (o, p) ∈ cache := by
  unfold cacheGet at h
  cases hf : cache.find? (fun e => e.1 == o) with
  | none =>
    rw [hf] at h
    exact Option.noConfusion h
  | some e =>
    rw [hf] at h
    have hm := List.mem_of_find?_eq_some hf
    have hp := List.find?_some hf
    obtain ⟨e1, e2⟩ := e
    simp at h hp
    subst hp
    subst h
    exact hm

theorem cacheGet_eq_some_of_mem (cache : Cache)
    (hnd : (cache.map Prod.fst).Nodup) (o : Oop) (p : CachedOopInfo)
    (hm : (o, p) ∈ cache) : cacheGet cache o = some p := by
  induction cache with
  | nil => cases hm
  | cons e rest ih =>
    rw [List.map_cons, List.nodup_cons] at hnd
    rcases List.mem_cons.mp hm with rfl | hm2
    · simp [cacheGet]
    · have ho : o ∈ rest.map Prod.fst := List.mem_map.mpr ⟨(o, p), hm2, rfl⟩
      have hne : e.1 ≠ o := fun he => hnd.1 (he ▸ ho)
      have hbeq : (e.1 == o) = false := beq_eq_false_iff_ne.mpr hne
      simp only [cacheGet, List.find?_cons, hbeq]
      exact ih hnd.2 hm2

theorem cacheGet_perm (c1 c2 : Cache) (hperm : c1.Perm c2)
    (hnd : (c1.map Prod.fst).Nodup) (o : Oop) :
    cacheGet c2 o = cacheGet c1 o := by
  have hnd2 : (c2.map Prod.fst).Nodup := ((hperm.map Prod.fst).nodup_iff).mp hnd
  cases hg : cacheGet c1 o with
  | some p =>
    exact cacheGet_eq_some_of_mem c2 hnd2 o p
      (hperm.mem_iff.mp (cacheGet_mem c1 o p hg))
  | none =>
    cases hg2 : cacheGet c2 o with
    | none => rfl
    | some p =>
      have hm1 : (o, p) ∈ c1 := hperm.mem_iff.mpr (cacheGet_mem c2 o p hg2)
      have := cacheGet_eq_some_of_mem c1 hnd o p hm1
      rw [hg] at this
      exact Option.noConfusion this

theorem trace_congr (env : Env) (c1 c2 : Cache)
    (hget : ∀ o, cacheGet c2 o = cacheGet c1 o) :
    ∀ (fuel : Nat) (o : Oop) (f : Option Oop) (p : CachedOopInfo),
      trace_to_root env c2 fuel o f p = trace_to_root env c1 fuel o f p := by
  intro fuel
  induction fuel with
  | zero => intro o f p; rfl
  | succ fuel ih =>
    intro o f p
    cases hr : p.referrer with
    | none =>
      cases hstr : isStringInstance env o with
      | false =>
        rw [trace_eq_root_plain env c2 fuel o f p hr hstr,
          trace_eq_root_plain env c1 fuel o f p hr hstr]
      | true =>
        rw [trace_eq_root_string env c2 fuel o f p hr hstr,
          trace_eq_root_string env c1 fuel o f p hr hstr]
    | some r =>
      cases hg : cacheGet c1 r with
      | none =>
        rw [trace_eq_step_fail env c2 fuel o f p r hr (by rw [hget r, hg]),
          trace_eq_step_fail env c1 fuel o f p r hr hg]
      | some ref =>
        rw [trace_eq_step env c2 fuel o f p r ref hr (by rw [hget r, hg]),
          trace_eq_step env c1 fuel o f p r ref hr hg, ih]

theorem chainOk_congr (c1 c2 : Cache)
    (hget : ∀ o, cacheGet c2 o = cacheGet c1 o) :
    ∀ (fuel : Nat) (ro : Option Oop), chainOk c2 fuel ro = chainOk c1 fuel ro := by
  intro fuel
  induction fuel with
  | zero => intro ro; cases ro <;> rfl
  | succ fuel ih =>
    intro ro
    cases ro with
    | none => rfl
    | some r =>
      simp only [chainOk, hget r]
      cases cacheGet c1 r with
      | none => rfl
      | some ref => exact ih ref.referrer

theorem entryLog_congr (env : Env) (c1 c2 : Cache) (t : StaticFieldTable)
    (hget : ∀ o, cacheGet c2 o = cacheGet c1 o) (hlen : c2.length = c1.length)
    (e : Oop × CachedOopInfo) :
    entryLog env c2 t e = entryLog env c1 t e := by
  unfold entryLog
  cases hg : tableGet t e.1 with
  | none => rfl
  | some info =>
    rw [hlen, trace_congr env c1 c2 hget (c1.length + 1) e.1 none e.2]

/-! Counting lemmas. -/

theorem countP_filterMap {α β : Type} (f : α → Option β) (p : β → Bool) :
    ∀ (l : List α), (l.filterMap f).countP p =
      l.countP (fun a => ((f a).map p).getD false) := by
  intro l
  induction l with
  | nil => rfl
  | cons a rest ih =>
    cases hf : f a with
    | none =>
      rw [List.filterMap_cons_none hf, List.countP_cons, ih]
      simp [hf]
    | some b =>
      rw [List.filterMap_cons_some hf, List.countP_cons, List.countP_cons, ih]
      simp [hf]

theorem count_key_eq_one (cache : Cache) (hnd : (cache.map Prod.fst).Nodup)
    (o : Oop) (p : CachedOopInfo) (hm : (o, p) ∈ cache) :
    cache.countP (fun e => e.1 == o) = 1 := by
  have h1 : (cache.map Prod.fst).countP (fun x => x == o) =
      cache.countP (fun e => e.1 == o) := List.countP_map _ _ _
  rw [← h1]
  have h2 : o ∈ cache.map Prod.fst := List.mem_map.mpr ⟨(o, p), hm, rfl⟩
  have := List.count_eq_one_of_mem hnd h2
  simpa [List.count] using this


/-! Spec-order refinement of the skip rules, and shared claim helpers. -/


theorem fieldDecisionSpecOrder_eq (env : Env) (ik : Klass) (fd : FieldDesc) :
    fieldDecisionSpecOrder env ik fd = fieldDecision env ik fd := by
  unfold fieldDecisionSpecOrder fieldDecision fieldValueDecision
  by_cases hs : fd.isStatic = true
  swap
  · rw [if_neg hs, if_neg hs]
  rw [if_pos hs, if_pos hs]
  by_cases ht : fd.fieldType = BasicType.tObject
  swap
  · rw [if_neg ht, if_neg ht]
  rw [if_pos ht, if_pos ht]
  by_cases hex : isExcluded ik.name fd.name = true
  · rw [if_pos hex]
    cases hv : objFieldAt env ik.mirror fd.offset with
    | none => rfl
    | some v => simp [hex]
  · rw [if_neg hex]
    cases hv : objFieldAt env ik.mirror fd.offset with
    | none => rfl
    | some v => simp [hex]

/-- Every reported violation is backed by a field of the named class whose
decision indexed exactly the violating object. -/
theorem violation_provenance (env : Env) (cache : Cache) (st : VState)
    (hwf : cacheWF cache = true) (hrun : verify env cache = some st) :
    ∀ viol ∈ logViolations st.log, ∃ ik fd,
      env.klasses.get? viol.holder = some ik ∧
      ik.isInstanceKlass = true ∧ ik.isSubgraphRootClass = false ∧
      fd ∈ ik.fields ∧ fd.name = viol.fname ∧
      fieldDecision env ik fd = some viol.obj := by
  intro viol hvm
  obtain ⟨h1, -, -, -, -, -⟩ := verify_state env cache hwf st hrun
  rw [h1, List.mem_filterMap] at hvm
  obtain ⟨e, hme, hve⟩ := hvm
  unfold violationOf at hve
  cases hg : tableGet (buildTable env) e.1 with
  | none =>
    rw [hg] at hve
    exact Option.noConfusion hve
  | some info =>
    rw [hg] at hve
    simp only [Option.map_some', Option.some.injEq] at hve
    subst hve
    obtain ⟨ik, fd, hk, hik, hroot, hm, hn, hd⟩ :=
      buildTable_mem env (e.1, info) (tableGet_mem _ _ _ hg)
    exact ⟨ik, fd, hk, hik, hroot, hm, hn, hd⟩

/-- A field whose decision is `none` is never the subject of any reported
violation (given distinct declared field names in its class). -/
theorem not_named_of_decision_none (env : Env) (cache : Cache) (ci : Nat)
    (ik : Klass) (fd : FieldDesc) (st : VState)
    (hk : env.klasses.get? ci = some ik)
    (hnames : (ik.fields.map FieldDesc.name).Nodup)
    (hm : fd ∈ ik.fields)
    (hdec : fieldDecision env ik fd = none)
    (hwf : cacheWF cache = true) (hrun : verify env cache = some st) :
    (logViolations st.log).countP
      (fun w => w.holder == ci && w.fname == fd.name) = 0 := by
  rw [List.countP_eq_zero]
  intro viol hvm hpred
  obtain ⟨ik2, fd2, hk2, -, -, hm2, hn2, hd2⟩ :=
    violation_provenance env cache st hwf hrun viol hvm
  simp only [Bool.and_eq_true, beq_iff_eq] at hpred
  obtain ⟨hh, hn⟩ := hpred
  rw [hh] at hk2
  obtain rfl : ik2 = ik := Option.some.inj (hk2.symm.trans hk)
  have hfd : fd2 = fd :=
    List.inj_on_of_nodup_map hnames hm2 hm (by rw [hn2, hn])
  rw [hfd, hdec] at hd2
  exact Option.noConfusion hd2

/-- The tracer always prints the traced object itself as the last hop. -/
theorem trace_last (env : Env) (cache : Cache) :
    ∀ (fuel : Nat) (o : Oop) (f : Option Oop) (p : CachedOopInfo)
      (lvl : Nat) (lines : List LogLine),
      trace_to_root env cache fuel o f p = some (lvl, lines) →
      lines.getLast? = some (hopLine env lvl o f) := by
  intro fuel
  induction fuel with
  | zero =>
    intro o f p lvl lines h
    exact absurd h (by simp [trace_to_root])
  | succ fuel ih =>
    intro o f p lvl lines h
    cases hr : p.referrer with
    | none =>
      cases hstr : isStringInstance env o with
      | false =>
        rw [trace_eq_root_plain env cache fuel o f p hr hstr] at h
        simp only [Option.some.injEq, Prod.mk.injEq] at h
        obtain ⟨rfl, rfl⟩ := h
        rfl
      | true =>
        rw [trace_eq_root_string env cache fuel o f p hr hstr] at h
        simp only [Option.some.injEq, Prod.mk.injEq] at h
        obtain ⟨rfl, rfl⟩ := h
        rfl
    | some r =>
      cases hg : cacheGet cache r with
      | none =>
        rw [trace_eq_step_fail env cache fuel o f p r hr hg] at h
        exact Option.noConfusion h
      | some ref =>
        rw [trace_eq_step env cache fuel o f p r ref hr hg] at h
        cases hrec : trace_to_root env cache fuel r (some o) ref with
        | none =>
          rw [hrec] at h
          exact Option.noConfusion h
        | some q =>
          rw [hrec] at h
          simp only [Option.map_some', Option.some.injEq, Prod.mk.injEq] at h
          obtain ⟨rfl, rfl⟩ := h
          exact List.getLast?_concat _


/-! The claims. -/

/-- A static field of array type is never indexed. -/
theorem decision_none_of_tArray (env : Env) (ik : Klass) (fd : FieldDesc)
    (hty : fd.fieldType = BasicType.tArray) :
    fieldDecision env ik fd = none := by
  cases hd : fieldDecision env ik fd with
  | none => rfl
  | some w =>
    obtain ⟨-, ht, -⟩ := (fieldDecision_eq_some_iff env ik fd w).mp hd
    rw [hty] at ht
    exact BasicType.noConfusion ht

/-- Claim C2: a declared static field's current value is entered into the
live-static-field index iff the field is static and object-typed, its value
is non-null, its name is not exempted for the class, it is not a final
string with a compile-time initial value, not a final class mirror, and the
value's class has no archived enum instances; a non-instance or subgraph
root class contributes nothing; and applying the skip rules in the spec's
stated order (exclusion before the null check) is observationally equal to
the source's order. -/
theorem claim_C2 :
    (∀ (env : Env) (ik : Klass) (fd : FieldDesc) (v : Oop),
      fieldDecision env ik fd = some v ↔
        fd.isStatic = true ∧ fd.fieldType = BasicType.tObject ∧
        objFieldAt env ik.mirror fd.offset = some v ∧
        isExcluded ik.name fd.name = false ∧
        (fd.isFinal && isStringInstance env v && fd.hasInitialValue) = false ∧
        (fd.isFinal && isClassInstance env v) = false ∧
        valueKlassHasArchivedEnumObjs env v = false) ∧
    (∀ (env : Env) (t : StaticFieldTable) (ki : Nat) (ik : Klass),
      env.klasses.get? ki = some ik →
      ik.isInstanceKlass = false ∨ ik.isSubgraphRootClass = true →
      do_klass env t ki = t) ∧
    (∀ (env : Env) (ik : Klass) (fd : FieldDesc),
      fieldDecisionSpecOrder env ik fd = fieldDecision env ik fd) :=
  ⟨fieldDecision_eq_some_iff,
   fun env t ki ik hk h => do_klass_eq_skip env t ki (Or.inr ⟨ik, hk, h⟩),
   fieldDecisionSpecOrder_eq⟩

/-- Claim C2 witness: concrete instantiations of all three parts. -/
theorem claim_C2_witness :
    ((fdG.isStatic = true ∧ fdG.fieldType = BasicType.tObject ∧
      objFieldAt envTwoFields kFoo.mirror fdG.offset = some 0 ∧
      isExcluded kFoo.name fdG.name = false ∧
      (fdG.isFinal && isStringInstance envTwoFields 0 &&
        fdG.hasInitialValue) = false ∧
      (fdG.isFinal && isClassInstance envTwoFields 0) = false ∧
      valueKlassHasArchivedEnumObjs envTwoFields 0 = false) ∧
     fieldDecision envTwoFields kFoo fdG = some 0) ∧
    (envRooted.klasses.get? 0 = some kFooRoot ∧
     kFooRoot.isSubgraphRootClass = true ∧
     do_klass envRooted [] 0 = []) ∧
    fieldDecisionSpecOrder envTwoFields kFoo fdG =
      fieldDecision envTwoFields kFoo fdG :=
  ⟨⟨by decide, (claim_C2.1 envTwoFields kFoo fdG 0).mpr (by decide)⟩,
   ⟨by decide, by decide,
    claim_C2.2.1 envRooted [] 0 kFooRoot (by decide) (Or.inr (by decide))⟩,
   claim_C2.2.2 envTwoFields kFoo fdG⟩

/-- Claim C3 counterexample: on an empty cache `verify` runs, finds zero
problems, and the sink receives NO summary line at all (the destructor
prints it only when `_problems > 0`), contradicting the claim that the
summary is emitted whenever `verify()` runs. -/
theorem claim_C3_counterexample :
    verify envEmpty [] =
      some { archived_objs := 0, problems := 0, log := [] } ∧
    (verify envEmpty []).map (fun st => containsSummary st.log) =
      some false :=
  ⟨rfl, rfl⟩

/-- Claim C3 (amended): the one-line summary is emitted iff at least one
problem was found; when emitted it is the last line and states N = the
number of cache entries scanned and M = the number of reported violations;
N and M are always tracked this way even when no summary is printed. -/
theorem claim_C3 (env : Env) (cache : Cache) (hwf : cacheWF cache = true)
    (st : VState) (hrun : verify env cache = some st) :
    st.archived_objs = cache.length ∧
    st.problems = (logViolations st.log).length ∧
    (containsSummary st.log = true ↔ 0 < st.problems) ∧
    (0 < st.problems →
      st.log.getLast? =
        some (LogLine.summary st.archived_objs st.problems)) := by
  obtain ⟨-, h2, -, h4, h5, h6⟩ := verify_state env cache hwf st hrun
  exact ⟨h2, h4, h5, h6⟩

/-- Claim C3 witness: the summary behavior on a run with one problem. -/
theorem claim_C3_witness :
    (cacheWF cacheOne = true ∧
     verify envTwoFields cacheOne = some stTwo) ∧
    (stTwo.archived_objs = cacheOne.length ∧
     stTwo.problems = (logViolations stTwo.log).length ∧
     (containsSummary stTwo.log = true ↔ 0 < stTwo.problems) ∧
     (0 < stTwo.problems →
       stTwo.log.getLast? =
         some (LogLine.summary stTwo.archived_objs stTwo.problems))) :=
  ⟨⟨by decide, by decide⟩,
   claim_C3 envTwoFields cacheOne (by decide) stTwo (by decide)⟩

/-- Claim C8: `put` unconditionally overwrites the entry for its key and
leaves other keys untouched, the table retains exactly one entry per put
key, and consequently at most one violation is attributed to any one
object. -/
theorem claim_C8 :
    (∀ (t : StaticFieldTable) (k : Oop) (v : StaticFieldInfo),
      tableGet (tablePut t k v) k = some v) ∧
    (∀ (t : StaticFieldTable) (k k2 : Oop) (v : StaticFieldInfo), k2 ≠ k →
      tableGet (tablePut t k v) k2 = tableGet t k2) ∧
    (∀ (t : StaticFieldTable) (k : Oop) (v : StaticFieldInfo),
      ((tablePut t k v).filter (fun p => p.1 == k)).length = 1) ∧
    (∀ (env : Env) (cache : Cache) (st : VState) (v : Oop),
      (cache.map Prod.fst).Nodup → cacheWF cache = true →
      verify env cache = some st →
      (logViolations st.log).countP (fun w => w.obj == v) ≤ 1) := by
  refine ⟨tableGet_tablePut_self, tableGet_tablePut_ne, ?_, ?_⟩
  · intro t k v
    unfold tablePut
    rw [List.filter_cons_of_pos (by simp)]
    have hnil : (t.filter (fun p => p.1 != k)).filter
        (fun p => p.1 == k) = [] := by
      rw [List.filter_eq_nil]
      intro a ha
      have h2 := (List.mem_filter.mp ha).2
      simp at h2 ⊢
      exact h2
    rw [hnil]
    rfl
  · intro env cache st v hnd hwf hrun
    obtain ⟨h1, -, -, -, -, -⟩ := verify_state env cache hwf st hrun
    rw [h1, countP_filterMap]
    have hle : cache.countP (fun e =>
        ((violationOf (buildTable env) e).map
          (fun w => w.obj == v)).getD false) ≤
        cache.countP (fun e => e.1 == v) := by
      apply List.countP_mono_left
      intro e hm hp
      unfold violationOf at hp
      cases hg : tableGet (buildTable env) e.1 with
      | none =>
        rw [hg] at hp
        exact absurd hp (by simp)
      | some info =>
        rw [hg] at hp
        simpa using hp
    have h2 : cache.countP (fun e => e.1 == v) ≤ 1 := by
      have hmc := List.countP_map (fun x : Oop => x == v) Prod.fst cache
      have hcount := List.nodup_iff_count_le_one.mp hnd v
      rw [List.count] at hcount
      rw [hmc] at hcount
      exact le_trans (le_of_eq (List.countP_congr (by intro x hx; rfl))) hcount
    omega

/-- Claim C8 witness: the put/get laws and the at-most-one bound on the
two-field collision scenario. -/
theorem claim_C8_witness :
    tableGet (tablePut [] 7 (StaticFieldInfo.mk 1 "a")) 7 =
      some (StaticFieldInfo.mk 1 "a") ∧
    ((cacheOne.map Prod.fst).Nodup ∧ cacheWF cacheOne = true ∧
     verify envTwoFields cacheOne = some stTwo) ∧
    (logViolations stTwo.log).countP (fun w => w.obj == 0) ≤ 1 :=
  ⟨claim_C8.1 [] 7 (StaticFieldInfo.mk 1 "a"),
   ⟨by decide, by decide, by decide⟩,
   claim_C8.2.2.2 envTwoFields cacheOne stTwo 0 (by decide) (by decide)
     (by decide)⟩

/-- Claim C9: a static field is indexed only when its declared type is
exactly `T_OBJECT`: an array-typed (`T_ARRAY`) static field is never
indexed, every index entry stems from a `T_OBJECT` field, and no violation
is ever attributed to an array-typed static field — whereas the tracer's
parent re-scan accepts both `T_OBJECT` and `T_ARRAY` instance fields. -/
theorem claim_C9 :
    (∀ (env : Env) (ik : Klass) (fd : FieldDesc),
      fd.fieldType = BasicType.tArray → fieldDecision env ik fd = none) ∧
    (∀ (env : Env) (p : Oop × StaticFieldInfo), p ∈ buildTable env →
      ∃ ik fd, env.klasses.get? p.2.holder = some ik ∧ fd ∈ ik.fields ∧
        fd.name = p.2.name ∧ fd.fieldType = BasicType.tObject ∧
        fieldDecision env ik fd = some p.1) ∧
    (∀ (env : Env) (parent child : Oop) (fd : FieldDesc),
      fd.isStatic = false → fd.fieldType = BasicType.tArray →
      objFieldAt env parent fd.offset = some child →
      traceFieldMatches env parent child fd = true) ∧
    (∀ (env : Env) (cache : Cache) (ci : Nat) (ik : Klass) (fd : FieldDesc)
      (st : VState), env.klasses.get? ci = some ik →
      (ik.fields.map FieldDesc.name).Nodup → fd ∈ ik.fields →
      fd.fieldType = BasicType.tArray → cacheWF cache = true →
      verify env cache = some st →
      (logViolations st.log).countP
        (fun w => w.holder == ci && w.fname == fd.name) = 0) := by
  refine ⟨decision_none_of_tArray, ?_, ?_, ?_⟩
  · intro env p hp
    obtain ⟨ik, fd, hk, -, -, hm, hn, hd⟩ := buildTable_mem env p hp
    obtain ⟨-, ht, -⟩ := (fieldDecision_eq_some_iff env ik fd p.1).mp hd
    exact ⟨ik, fd, hk, hm, hn, ht, hd⟩
  · intro env parent child fd h1 h2 h3
    exact (traceFieldMatches_iff env parent child fd).mpr ⟨h1, Or.inr h2, h3⟩
  · intro env cache ci ik fd st hk hnames hm hty hwf hrun
    exact not_named_of_decision_none env cache ci ik fd st hk hnames hm
      (decision_none_of_tArray env ik fd hty) hwf hrun

/-- Claim C9 witness: the array-typed static field `C::arr` is never
indexed nor reported, while the tracer accepts an array-typed instance
field. -/
theorem claim_C9_witness :
    (fdArr.fieldType = BasicType.tArray ∧
     fieldDecision envArr kC fdArr = none) ∧
    (fdChildArr.isStatic = false ∧ fdChildArr.fieldType = BasicType.tArray ∧
     objFieldAt envArrField 40 fdChildArr.offset = some 41 ∧
     traceFieldMatches envArrField 40 41 fdChildArr = true) ∧
    ((envArr.klasses.get? 0 = some kC ∧
      (kC.fields.map FieldDesc.name).Nodup ∧ fdArr ∈ kC.fields ∧
      cacheWF cacheArr = true ∧ verify envArr cacheArr = some stArr) ∧
     (logViolations stArr.log).countP
       (fun w => w.holder == 0 && w.fname == fdArr.name) = 0) :=
  ⟨⟨by decide, claim_C9.1 envArr kC fdArr (by decide)⟩,
   ⟨by decide, by decide, by decide,
    claim_C9.2.2.1 envArrField 40 41 fdChildArr (by decide) (by decide)
      (by decide)⟩,
   ⟨⟨by decide, by decide, by decide, by decide, by decide⟩,
    claim_C9.2.2.2 envArr cacheArr 0 kC fdArr stArr (by decide) (by decide)
      (by decide) (by decide) (by decide) (by decide)⟩⟩

/-- Claim C10: when no object-valued field of an instance parent (or no
element of an array parent) is identical to the child, the selector is
`none`, yet the trace still succeeds and still prints the object's hop line
with its identity and class name. -/
theorem claim_C10 (env : Env) (cache : Cache) (fuel : Nat) (o : Oop)
    (f : Option Oop) (p : CachedOopInfo)
    (hchain : chainOk cache fuel p.referrer = true) :
    (∀ (child : Oop) (k : Klass), oopKlass env o = some k →
      k.isInstanceKlass = true →
      (∀ fd ∈ k.fields, traceFieldMatches env o child fd = false) →
      selOf env o child = none) ∧
    (∀ (child : Oop) (k : Klass) (od : ObjDesc), oopKlass env o = some k →
      k.isInstanceKlass = false → env.obj o = some od →
      (∀ e ∈ od.arrayElems, e ≠ some child) →
      selOf env o child = none) ∧
    ∃ lvl lines,
      trace_to_root env cache (fuel + 1) o f p = some (lvl, lines) ∧
      lines.getLast? = some (LogLine.hop lvl o
        ((oopKlass env o).elim "" Klass.name) (f.bind (selOf env o))) := by
  refine ⟨?_, ?_, ?_⟩
  · intro child k hk hik hnone
    exact selOf_none_of_no_field_match env o child k hk hik hnone
  · intro child k od hk hik hod hnone
    exact selOf_none_of_no_elem_match env o child k od hk hik hod hnone
  · obtain ⟨q, htr⟩ := trace_some env cache fuel o f p hchain
    obtain ⟨lvl, lines⟩ := q
    exact ⟨lvl, lines, htr,
      trace_last env cache (fuel + 1) o f p lvl lines htr⟩

/-- Claim C10 witness: object 20 is recorded as 21's referrer but no longer
references it; the hop is still printed, with no selector. -/
theorem claim_C10_witness :
    (chainOk cacheNoMatch 1 (CachedOopInfo.mk none).referrer = true ∧
     oopKlass envNoMatch 20 = some kM ∧ kM.isInstanceKlass = true ∧
     (∀ fd ∈ kM.fields, traceFieldMatches envNoMatch 20 21 fd = false)) ∧
    selOf envNoMatch 20 21 = none ∧
    (∃ lvl lines,
      trace_to_root envNoMatch cacheNoMatch (1 + 1) 20 (some 21)
        (CachedOopInfo.mk none) = some (lvl, lines) ∧
      lines.getLast? = some (LogLine.hop lvl 20
        ((oopKlass envNoMatch 20).elim "" Klass.name)
        ((some 21).bind (selOf envNoMatch 20)))) :=
  ⟨⟨by decide, by decide, by decide, by decide⟩,
   (claim_C10 envNoMatch cacheNoMatch 1 20 (some 21)
     (CachedOopInfo.mk none) (by decide)).1 21 kM (by decide) (by decide)
     (by decide),
   (claim_C10 envNoMatch cacheNoMatch 1 20 (some 21)
     (CachedOopInfo.mk none) (by decide)).2.2⟩


/-- Claim C1 counterexample: field `Foo::f` satisfies every condition of the
claim (non-root class, object-typed, not exempted, non-null value present in
the snapshot cache, no skip rule 4–6 applies), yet the run reports zero
violations naming `(Foo, f)`: the later-scanned field `g` holds the
identical object, overwrote the index entry, and owns the only violation. -/
theorem claim_C1_counterexample :
    (envTwoFields.klasses.get? 0 = some kFoo ∧
     kFoo.isInstanceKlass = true ∧ kFoo.isSubgraphRootClass = false ∧
     fdF ∈ kFoo.fields ∧ fdF.isStatic = true ∧
     fdF.fieldType = BasicType.tObject ∧
     objFieldAt envTwoFields kFoo.mirror fdF.offset = some 0 ∧
     isExcluded kFoo.name fdF.name = false ∧
     (fdF.isFinal && isStringInstance envTwoFields 0 &&
       fdF.hasInitialValue) = false ∧
     (fdF.isFinal && isClassInstance envTwoFields 0) = false ∧
     valueKlassHasArchivedEnumObjs envTwoFields 0 = false ∧
     (0, CachedOopInfo.mk none) ∈ cacheOne ∧ cacheWF cacheOne = true ∧
     verify envTwoFields cacheOne = some stTwo) ∧
    (logViolations stTwo.log).countP
      (fun w => w.holder == 0 && w.fname == fdF.name) = 0 :=
  ⟨by decide, by decide⟩

/-- Claim C1 (amended): under the claim's conditions the object is always a
key of the index, and the cross-check reports exactly one violation naming
`(C, f)` PROVIDED `(C, f)` is the origin the last-write-wins index retains
for `v` — when another static field scanned later also holds `v`, the single
violation for `v` names that later origin instead. -/
theorem claim_C1 (env : Env) (cache : Cache) (ci : Nat) (ik : Klass)
    (fd : FieldDesc) (v : Oop) (pv : CachedOopInfo) (st : VState)
    (hk : env.klasses.get? ci = some ik)
    (hik : ik.isInstanceKlass = true)
    (hroot : ik.isSubgraphRootClass = false)
    (hm : fd ∈ ik.fields)
    (hnames : (ik.fields.map FieldDesc.name).Nodup)
    (hs : fd.isStatic = true)
    (ht : fd.fieldType = BasicType.tObject)
    (hv : objFieldAt env ik.mirror fd.offset = some v)
    (hex : isExcluded ik.name fd.name = false)
    (h4 : (fd.isFinal && isStringInstance env v && fd.hasInitialValue) = false)
    (h5 : (fd.isFinal && isClassInstance env v) = false)
    (h6 : valueKlassHasArchivedEnumObjs env v = false)
    (hmc : (v, pv) ∈ cache)
    (hnd : (cache.map Prod.fst).Nodup)
    (hwf : cacheWF cache = true)
    (hlast : tableGet (buildTable env) v =
      some (StaticFieldInfo.mk ci fd.name))
    (hrun : verify env cache = some st) :
    (tableGet (buildTable env) v).isSome = true ∧
    (logViolations st.log).countP
      (fun w => w.holder == ci && w.fname == fd.name) = 1 := by
  have hdec : fieldDecision env ik fd = some v :=
    (fieldDecision_eq_some_iff env ik fd v).mpr ⟨hs, ht, hv, hex, h4, h5, h6⟩
  refine ⟨buildTable_key env ci ik fd v hk hik hroot hm hdec, ?_⟩
  obtain ⟨h1, -, -, -, -, -⟩ := verify_state env cache hwf st hrun
  rw [h1, countP_filterMap]
  have hq : ∀ e ∈ cache,
      (((violationOf (buildTable env) e).map
        (fun w => w.holder == ci && w.fname == fd.name)).getD false = true) ↔
      ((e.1 == v) = true) := by
    intro e hme
    unfold violationOf
    cases hg : tableGet (buildTable env) e.1 with
    | none =>
      constructor
      · intro hp
        exact absurd hp (by simp)
      · intro hp
        exfalso
        have he : e.1 = v := by simpa using hp
        rw [he, hlast] at hg
        exact Option.noConfusion hg
    | some info =>
      obtain ⟨ih0, in0⟩ := info
      simp only [Option.map_some', Option.getD_some]
      constructor
      · intro hp
        simp only [Bool.and_eq_true, beq_iff_eq] at hp ⊢
        obtain ⟨rfl, rfl⟩ := hp
        exact tableOrigin_unique env _ ik hk hnames e.1 v _ hg hlast
      · intro hp
        have he : e.1 = v := by simpa using hp
        rw [he, hlast] at hg
        have h7 := Option.some.inj hg
        injection h7 with e1 e2
        subst e1
        subst e2
        simp
  rw [List.countP_congr hq]
  exact count_key_eq_one cache hnd v pv hmc

/-- Claim C1 witness: the two-field collision scenario, instantiated at the
retained origin `(Foo, g)`. -/
theorem claim_C1_witness :
    (envTwoFields.klasses.get? 0 = some kFoo ∧
     kFoo.isInstanceKlass = true ∧ kFoo.isSubgraphRootClass = false ∧
     fdG ∈ kFoo.fields ∧ (kFoo.fields.map FieldDesc.name).Nodup ∧
     fdG.isStatic = true ∧ fdG.fieldType = BasicType.tObject ∧
     objFieldAt envTwoFields kFoo.mirror fdG.offset = some 0 ∧
     isExcluded kFoo.name fdG.name = false ∧
     (fdG.isFinal && isStringInstance envTwoFields 0 &&
       fdG.hasInitialValue) = false ∧
     (fdG.isFinal && isClassInstance envTwoFields 0) = false ∧
     valueKlassHasArchivedEnumObjs envTwoFields 0 = false ∧
     (0, CachedOopInfo.mk none) ∈ cacheOne ∧
     (cacheOne.map Prod.fst).Nodup ∧ cacheWF cacheOne = true ∧
     tableGet (buildTable envTwoFields) 0 =
       some (StaticFieldInfo.mk 0 fdG.name) ∧
     verify envTwoFields cacheOne = some stTwo) ∧
    ((tableGet (buildTable envTwoFields) 0).isSome = true ∧
     (logViolations stTwo.log).countP
       (fun w => w.holder == 0 && w.fname == fdG.name) = 1) :=
  ⟨by decide,
   claim_C1 envTwoFields cacheOne 0 kFoo fdG 0 (CachedOopInfo.mk none) stTwo
     (by decide) (by decide) (by decide) (by decide) (by decide) (by decide)
     (by decide) (by decide) (by decide) (by decide) (by decide) (by decide)
     (by decide) (by decide) (by decide) (by decide) (by decide)⟩

/-- Claim C4 counterexample: the final literal string field `A::LIT` holds
string object 0, which is present in the snapshot — and object 0 IS reported
as a violation (attributed to the plain field `other` holding the same
object), contradicting "its value is never reported as a violation". -/
theorem claim_C4_counterexample :
    (fdLit.isFinal = true ∧ fdLit.hasInitialValue = true ∧
     objFieldAt envLit kA.mirror fdLit.offset = some 0 ∧
     isStringInstance envLit 0 = true ∧
     (0, CachedOopInfo.mk none) ∈ cacheLit ∧
     verify envLit cacheLit = some stLit) ∧
    (logViolations stLit.log).countP (fun w => w.obj == 0) = 1 :=
  ⟨by decide, by decide⟩

/-- Claim C4 (amended): a final string field with a compile-time initial
value is never indexed, and no violation is ever attributed to THAT field;
the object it holds may still be reported when another, non-skipped static
field holds the identical object. -/
theorem claim_C4 (env : Env) (cache : Cache) (ci : Nat) (ik : Klass)
    (fd : FieldDesc) (v : Oop) (st : VState)
    (hk : env.klasses.get? ci = some ik)
    (hnames : (ik.fields.map FieldDesc.name).Nodup)
    (hm : fd ∈ ik.fields)
    (hv : objFieldAt env ik.mirror fd.offset = some v)
    (hfin : fd.isFinal = true) (hstr : isStringInstance env v = true)
    (hini : fd.hasInitialValue = true)
    (hwf : cacheWF cache = true) (hrun : verify env cache = some st) :
    fieldDecision env ik fd = none ∧
    (logViolations st.log).countP
      (fun w => w.holder == ci && w.fname == fd.name) = 0 := by
  have hdec : fieldDecision env ik fd = none := by
    cases hd : fieldDecision env ik fd with
    | none => rfl
    | some w =>
      obtain ⟨-, -, hv2, -, h4, -, -⟩ :=
        (fieldDecision_eq_some_iff env ik fd w).mp hd
      rw [hv] at hv2
      obtain rfl := Option.some.inj hv2
      rw [hfin, hstr, hini] at h4
      exact Bool.noConfusion h4
  exact ⟨hdec, not_named_of_decision_none env cache ci ik fd st hk hnames hm
    hdec hwf hrun⟩

/-- Claim C4 witness: the literal field of the string scenario is skipped
and never named. -/
theorem claim_C4_witness :
    (envLit.klasses.get? 0 = some kA ∧
     (kA.fields.map FieldDesc.name).Nodup ∧ fdLit ∈ kA.fields ∧
     objFieldAt envLit kA.mirror fdLit.offset = some 0 ∧
     fdLit.isFinal = true ∧ isStringInstance envLit 0 = true ∧
     fdLit.hasInitialValue = true ∧ cacheWF cacheLit = true ∧
     verify envLit cacheLit = some stLit) ∧
    (fieldDecision envLit kA fdLit = none ∧
     (logViolations stLit.log).countP
       (fun w => w.holder == 0 && w.fname == fdLit.name) = 0) :=
  ⟨by decide,
   claim_C4 envLit cacheLit 0 kA fdLit 0 stLit (by decide) (by decide)
     (by decide) (by decide) (by decide) (by decide) (by decide) (by decide)
     (by decide)⟩

/-- Claim C5: a static field whose value's class has archived enum
instances is never indexed; no reported violating object's class has
archived enum instances; such a field is never named in a violation; and in
the concrete enum scenario (`E::CONST` holds archived `Q`) the checker
reports zero problems. -/
theorem claim_C5 :
    (∀ (env : Env) (ik : Klass) (fd : FieldDesc) (v : Oop),
      valueKlassHasArchivedEnumObjs env v = true →
      fieldDecision env ik fd ≠ some v) ∧
    (∀ (env : Env) (cache : Cache) (st : VState), cacheWF cache = true →
      verify env cache = some st →
      ∀ viol ∈ logViolations st.log,
        valueKlassHasArchivedEnumObjs env viol.obj = false) ∧
    (∀ (env : Env) (cache : Cache) (ci : Nat) (ik : Klass) (fd : FieldDesc)
      (v : Oop) (st : VState), env.klasses.get? ci = some ik →
      (ik.fields.map FieldDesc.name).Nodup → fd ∈ ik.fields →
      objFieldAt env ik.mirror fd.offset = some v →
      valueKlassHasArchivedEnumObjs env v = true → cacheWF cache = true →
      verify env cache = some st →
      (logViolations st.log).countP
        (fun w => w.holder == ci && w.fname == fd.name) = 0) ∧
    (verify envEnum cacheEnum = some stEnum ∧ stEnum.problems = 0) := by
  refine ⟨?_, ?_, ?_, by decide, rfl⟩
  · intro env ik fd v henum hd
    obtain ⟨-, -, -, -, -, -, h6⟩ :=
      (fieldDecision_eq_some_iff env ik fd v).mp hd
    rw [henum] at h6
    exact Bool.noConfusion h6
  · intro env cache st hwf hrun viol hvm
    obtain ⟨ik, fd, -, -, -, -, -, hd⟩ :=
      violation_provenance env cache st hwf hrun viol hvm
    obtain ⟨-, -, -, -, -, -, h6⟩ :=
      (fieldDecision_eq_some_iff env ik fd viol.obj).mp hd
    exact h6
  · intro env cache ci ik fd v st hk hnames hm hv henum hwf hrun
    have hdec : fieldDecision env ik fd = none := by
      cases hd : fieldDecision env ik fd with
      | none => rfl
      | some w =>
        obtain ⟨-, -, hv2, -, -, -, h6⟩ :=
          (fieldDecision_eq_some_iff env ik fd w).mp hd
        rw [hv] at hv2
        obtain rfl := Option.some.inj hv2
        rw [henum] at h6
        exact Bool.noConfusion h6
    exact not_named_of_decision_none env cache ci ik fd st hk hnames hm hdec
      hwf hrun

/-- Claim C5 witness: the enum scenario, instantiated. -/
theorem claim_C5_witness :
    (valueKlassHasArchivedEnumObjs envEnum 5 = true ∧
     fieldDecision envEnum kE fdConst ≠ some 5) ∧
    ((cacheWF cacheEnum = true ∧ verify envEnum cacheEnum = some stEnum) ∧
     ∀ viol ∈ logViolations stEnum.log,
       valueKlassHasArchivedEnumObjs envEnum viol.obj = false) :=
  ⟨⟨by decide, claim_C5.1 envEnum kE fdConst 5 (by decide)⟩,
   ⟨⟨by decide, by decide⟩,
    claim_C5.2.1 envEnum cacheEnum stEnum (by decide) (by decide)⟩⟩

/-- Claim C6: for a flagged cache entry the trace succeeds; it is nonempty,
root-first with adjacent depths increasing by one, its first printed hop is
a snapshot root (an entry with no referrer, or the shared-string-table
label), its last printed hop is the violating object itself, and the
selector printed on a parent is the first object/array-valued field (in
declaration order) or first array element whose current value is identical
to the child. -/
theorem claim_C6 (env : Env) (cache : Cache) (o : Oop) (p : CachedOopInfo)
    (hcg : cacheGet cache o = some p)
    (hchain : chainOk cache cache.length p.referrer = true) :
    ∃ lvl lines,
      trace_to_root env cache (cache.length + 1) o none p =
        some (lvl, lines) ∧
      lines ≠ [] ∧
      lines.getLast? = some (LogLine.hop lvl o
        ((oopKlass env o).elim "" Klass.name) none) ∧
      (lines.head? = some (LogLine.stringTableHop 0) ∨
        ∃ r kn sel pr, lines.head? = some (LogLine.hop 0 r kn sel) ∧
          cacheGet cache r = some pr ∧ pr.referrer = none) ∧
      List.Chain' (hopStep env) lines ∧
      (∀ (parent child : Oop) (n : String) (off : Nat),
        selOf env parent child = some (Selector.field n off) →
        ∃ k, oopKlass env parent = some k ∧ k.isInstanceKlass = true ∧
          ∃ i fd, k.fields.get? i = some fd ∧ fd.name = n ∧
            fd.offset = off ∧ fd.isStatic = false ∧
            (fd.fieldType = BasicType.tObject ∨
              fd.fieldType = BasicType.tArray) ∧
            objFieldAt env parent fd.offset = some child ∧
            ∀ j, j < i → ∀ fd2, k.fields.get? j = some fd2 →
              traceFieldMatches env parent child fd2 = false) ∧
      (∀ (parent child : Oop) (i : Nat),
        selOf env parent child = some (Selector.elem i) →
        ∃ k od, oopKlass env parent = some k ∧ k.isInstanceKlass = false ∧
          env.obj parent = some od ∧
          od.arrayElems.get? i = some (some child) ∧
          ∀ j, j < i → od.arrayElems.get? j ≠ some (some child)) := by
  obtain ⟨q, htr⟩ := trace_some env cache cache.length o none p hchain
  obtain ⟨lvl, lines⟩ := q
  obtain ⟨hne, hlast, hhead, hchain2⟩ :=
    trace_invariant env cache (cache.length + 1) o none p lvl lines htr hcg
  refine ⟨lvl, lines, htr, hne, hlast, hhead, hchain2, ?_, ?_⟩
  · intro parent child n off hs
    obtain ⟨k, hk2, hik, i, fd, hget, hn, hoff, hp, hfirst⟩ :=
      selOf_field_spec env parent child n off hs
    obtain ⟨h1, h2, h3⟩ := (traceFieldMatches_iff env parent child fd).mp hp
    exact ⟨k, hk2, hik, i, fd, hget, hn, hoff, h1, h2, h3, hfirst⟩
  · intro parent child i hs
    exact selOf_elem_spec env parent child i hs

/-- Claim C6 witness: the three-hop chain 10 → 11 → 12, traced from the
flagged leaf 12. -/
theorem claim_C6_witness :
    (cacheGet cacheTrace 12 = some (CachedOopInfo.mk (some 11)) ∧
     chainOk cacheTrace cacheTrace.length
       (CachedOopInfo.mk (some 11)).referrer = true) ∧
    (∃ lvl lines,
      trace_to_root envTrace cacheTrace (cacheTrace.length + 1) 12 none
        (CachedOopInfo.mk (some 11)) = some (lvl, lines) ∧
      lines ≠ [] ∧
      lines.getLast? = some (LogLine.hop lvl 12
        ((oopKlass envTrace 12).elim "" Klass.name) none) ∧
      (lines.head? = some (LogLine.stringTableHop 0) ∨
        ∃ r kn sel pr, lines.head? = some (LogLine.hop 0 r kn sel) ∧
          cacheGet cacheTrace r = some pr ∧ pr.referrer = none) ∧
      List.Chain' (hopStep envTrace) lines ∧
      (∀ (parent child : Oop) (n : String) (off : Nat),
        selOf envTrace parent child = some (Selector.field n off) →
        ∃ k, oopKlass envTrace parent = some k ∧ k.isInstanceKlass = true ∧
          ∃ i fd, k.fields.get? i = some fd ∧ fd.name = n ∧
            fd.offset = off ∧ fd.isStatic = false ∧
            (fd.fieldType = BasicType.tObject ∨
              fd.fieldType = BasicType.tArray) ∧
            objFieldAt envTrace parent fd.offset = some child ∧
            ∀ j, j < i → ∀ fd2, k.fields.get? j = some fd2 →
              traceFieldMatches envTrace parent child fd2 = false) ∧
      (∀ (parent child : Oop) (i : Nat),
        selOf envTrace parent child = some (Selector.elem i) →
        ∃ k od, oopKlass envTrace parent = some k ∧
          k.isInstanceKlass = false ∧ envTrace.obj parent = some od ∧
          od.arrayElems.get? i = some (some child) ∧
          ∀ j, j < i → od.arrayElems.get? j ≠ some (some child))) :=
  ⟨⟨by decide, by decide⟩,
   claim_C6 envTrace cacheTrace 12 (CachedOopInfo.mk (some 11)) (by decide)
     (by decide)⟩

/-- Claim C7: two checker runs over the same index and the same cache
contents in different iteration orders both run to completion over every
entry, find the same number of problems, and report the same violations up
to print order. -/
theorem claim_C7 (env : Env) (t : StaticFieldTable) (c1 c2 : Cache)
    (hperm : c1.Perm c2) (hnd : (c1.map Prod.fst).Nodup)
    (hwf : cacheWF c1 = true) :
    ∃ st1 st2, runChecker env c1 t = some st1 ∧
      runChecker env c2 t = some st2 ∧
      st1.archived_objs = c1.length ∧ st2.archived_objs = c2.length ∧
      st1.problems = st2.problems ∧
      (logViolations st1.log).Perm (logViolations st2.log) ∧
      ∀ w, w ∈ logViolations st1.log ↔ w ∈ logViolations st2.log := by
  have hget : ∀ o, cacheGet c2 o = cacheGet c1 o :=
    cacheGet_perm c1 c2 hperm hnd
  have hlen : c2.length = c1.length := hperm.length_eq.symm
  have hwf2 : cacheWF c2 = true := by
    unfold cacheWF
    rw [List.all_eq_true]
    intro e hm
    rw [chainOk_congr c1 c2 hget c2.length e.2.referrer, hlen]
    exact cacheWF_chains c1 hwf e (hperm.mem_iff.mpr hm)
  have h1 := runChecker_eq env c1 t (cacheWF_hyp env c1 t hwf)
  have h2 := runChecker_eq env c2 t (cacheWF_hyp env c2 t hwf2)
  have e1 : logViolations ((c1.map (entryLog env c1 t)).join) =
      c1.filterMap (violationOf t) :=
    logViolations_entryLog_join env c1 t c1 (cacheWF_hyp env c1 t hwf)
  have e2 : logViolations ((c2.map (entryLog env c2 t)).join) =
      c2.filterMap (violationOf t) :=
    logViolations_entryLog_join env c2 t c2 (cacheWF_hyp env c2 t hwf2)
  refine ⟨_, _, h1, h2, rfl, rfl, ?_, ?_, ?_⟩
  · exact List.Perm.countP_eq _ hperm
  · show (logViolations ((c1.map (entryLog env c1 t)).join)).Perm
      (logViolations ((c2.map (entryLog env c2 t)).join))
    rw [e1, e2]
    exact hperm.filterMap _
  · intro w
    show w ∈ logViolations ((c1.map (entryLog env c1 t)).join) ↔
      w ∈ logViolations ((c2.map (entryLog env c2 t)).join)
    rw [e1, e2]
    exact (hperm.filterMap _).mem_iff

/-- Claim C7 witness: the trace-scenario cache iterated in two different
orders over a one-entry index. -/
theorem claim_C7_witness :
    (cacheTrace.Perm cacheTraceRev ∧ (cacheTrace.map Prod.fst).Nodup ∧
     cacheWF cacheTrace = true) ∧
    (∃ st1 st2, runChecker envTrace cacheTrace tblW = some st1 ∧
      runChecker envTrace cacheTraceRev tblW = some st2 ∧
      st1.archived_objs = cacheTrace.length ∧
      st2.archived_objs = cacheTraceRev.length ∧
      st1.problems = st2.problems ∧
      (logViolations st1.log).Perm (logViolations st2.log) ∧
      ∀ w, w ∈ logViolations st1.log ↔ w ∈ logViolations st2.log) :=
  ⟨⟨by decide, by decide, by decide⟩,
   claim_C7 envTrace tblW cacheTrace cacheTraceRev (by decide) (by decide)
     (by decide)⟩


end CDSHeapVerify
